import Mathlib

/-!
Verification of the core text-processing components of the `gpt_wiki_translator`
repository against its natural-language specification.

The development shallowly embeds the two core modules:

* `chunking.py` — token-estimating, section-aware chunking of wiki text.
  Python strings are modelled as Lean `String`s (lists of unicode characters,
  matching Python's code-point semantics for `len` and slicing).  The heading
  regular expression `^(={2,6})\s*(.+?)\s*\1\s*$` (MULTILINE) is embedded as an
  explicit backtracking matcher with Python's strategy: alternatives are tried
  in the engine's order (greedy pieces longest-first, the lazy piece
  shortest-first), and `finditer` scans for the leftmost match, resuming after
  each match's end.

* `wikitext_parser.py` — masking/restoration of template structure.  The
  external parser library (`mwparserfromhell`) is out of scope of the
  repository; following its documented interface, a parsed document is an
  ordered list of nodes, where a template node carries a name and an ordered
  parameter list (name, explicit-key flag, value), a parameter value being
  itself a node list (templates can be nested inside values).  `str(node)`
  serialization is embedded as `serializeNode`; re-serializing a parse result
  yields the exact source text, so functions that parse, transform and
  re-serialize are embedded at the document level.  Parse failure of the
  `parse` abstraction is modelled by `Option`-valued parse arguments in the
  string-level wrappers.
-/

/-! ## Python string primitives -/

/-- Python `str.strip()` whitespace test (ASCII part of Python's definition). -/
def pyIsSpace (c : Char) : Bool :=
  c = ' ' || c = '\t' || c = '\n' || c = '\x0d' || c = '\x0b' || c = '\x0c'

/-- Characters of Python `s.strip()`. -/
def pyStripChars (l : List Char) : List Char :=
  ((l.dropWhile pyIsSpace).reverse.dropWhile pyIsSpace).reverse

/-- Python `s.strip()`. -/
def pyStrip (s : String) : String :=
  ⟨pyStripChars s.data⟩

/-- First piece and remaining pieces of Python `s.split("\n\n")`, scanning
left to right for non-overlapping separator occurrences. -/
def splitNNAux : List Char → List Char × List (List Char)
  | [] => ([], [])
  | '\n' :: '\n' :: rest => ([], (splitNNAux rest).1 :: (splitNNAux rest).2)
  | c :: rest => (c :: (splitNNAux rest).1, (splitNNAux rest).2)

/-- Python `s.split("\n\n")`: split on each non-overlapping occurrence of the
separator, scanning left to right; empty pieces are kept. -/
def splitNN (l : List Char) : List (List Char) :=
  (splitNNAux l).1 :: (splitNNAux l).2

/-- Python slice `s[a:b]` (for `a ≤ b` within bounds, as used by the code). -/
def sliceStr (s : List Char) (a b : Nat) : String :=
  ⟨(s.take b).drop a⟩

/-! ## The heading matcher (`re` embedding)

Embedding of `re.compile(r'^(={2,6})\s*(.+?)\s*\1\s*$', re.MULTILINE)` and
`finditer`, specialized to this one pattern. -/

/-- Length of the run of `=` characters starting at position `p`. -/
def eqRunAt (s : List Char) (p : Nat) : Nat :=
  ((s.drop p).takeWhile (fun c => c = '=')).length

/-- Length of the run of whitespace (`\s`) starting at position `p`. -/
def wsRunAt (s : List Char) (p : Nat) : Nat :=
  ((s.drop p).takeWhile pyIsSpace).length

/-- Length of the run of non-newline characters (matched by `.`) at `p`. -/
def nonNlRunAt (s : List Char) (p : Nat) : Nat :=
  ((s.drop p).takeWhile (fun c => !(c = '\n'))).length

/-- `[hi, hi-1, ..., lo]` — a greedy piece's candidate lengths. -/
def descRange (hi lo : Nat) : List Nat :=
  (List.range (hi + 1 - lo)).map (fun t => hi - t)

/-- `[1, 2, ..., n]` — the lazy piece's candidate lengths. -/
def ascRange (n : Nat) : List Nat :=
  (List.range n).map (fun t => t + 1)

/-- `$` in MULTILINE mode: end of string or just before a newline. -/
def atLineEnd (s : List Char) (p : Nat) : Bool :=
  p = s.length || (s.drop p).head? = some '\n'

/-- `^` in MULTILINE mode: start of string or just after a newline. -/
def lineStart (s : List Char) (p : Nat) : Bool :=
  p = 0 || (s.drop (p - 1)).head? = some '\n'

/-- Attempt to match `(={2,6})\s*(.+?)\s*\1\s*$` at position `p`, in the
backtracking order of the Python engine.  Returns the end of `group(0)`. -/
def attemptMatchAt (s : List Char) (p : Nat) : Option Nat :=
  let run := eqRunAt s p
  if run < 2 then none else
  (descRange (min run 6) 2).findSome? (fun k =>
    let a1 := p + k
    (descRange (wsRunAt s a1) 0).findSome? (fun w1 =>
      let c0 := a1 + w1
      (ascRange (nonNlRunAt s c0)).findSome? (fun a =>
        let c1 := c0 + a
        (descRange (wsRunAt s c1) 0).findSome? (fun w2 =>
          let b := c1 + w2
          if k ≤ eqRunAt s b then
            let a2 := b + k
            (descRange (wsRunAt s a2) 0).findSome? (fun w3 =>
              let e := a2 + w3
              if atLineEnd s e then some e else none)
          else none))))

/-- `finditer` scan: leftmost match wins, matching never starts inside a
previous match.  `^` restricts attempts to line starts.  The fuel argument is
an upper bound on the number of scan steps; `s.length + 1` always suffices
because every step advances the position. -/
def findFrom (s : List Char) : Nat → Nat → List (Nat × Nat)
  | 0, _ => []
  | fuel + 1, p =>
    if s.length < p then []
    else
      match (if lineStart s p then attemptMatchAt s p else none) with
      | some e => (p, e) :: findFrom s fuel (max (p + 1) e)
      | none => findFrom s fuel (p + 1)

/-- All `(start, end)` spans of heading matches, in document order. -/
def findHeadings (s : List Char) : List (Nat × Nat) :=
  findFrom s (s.length + 1) 0

/-! ## `chunking.py` -/

/-- Python `"\n\n".join(parts)`. -/
def joinNN : List String → String
  | [] => ""
  | [a] => a
  | a :: rest => a ++ "\n\n" ++ joinNN rest

/-- `estimate_tokens`: `len(text) // 3`. -/
def estimate_tokens (text : String) : Nat :=
  text.length / 3

/-- One step of the `for match in heading_pattern.finditer(wikitext)` loop of
`split_by_sections`; the state is `(last_end, last_heading, sections)`. -/
def sectFoldStep (s : List Char) (st : Nat × String × List (String × String))
    (m : Nat × Nat) : Nat × String × List (String × String) :=
  let content := pyStrip (sliceStr s st.1 m.1)
  let acc :=
    if content ≠ "" ∨ st.2.1 ≠ "" then st.2.2 ++ [(st.2.1, content)] else st.2.2
  (m.2, sliceStr s m.1 m.2, acc)

/-- `split_by_sections`: list of `(heading, content)` pairs. -/
def split_by_sections (wikitext : String) : List (String × String) :=
  let s := wikitext.data
  let st := (findHeadings s).foldl (sectFoldStep s) (0, "", [])
  st.2.2 ++ [(st.2.1, pyStrip (sliceStr s st.1 s.length))]

/-- One iteration of the `for para in paragraphs` loop of `create_chunks`;
the state is `(chunks, para_chunk_parts, para_tokens)`.  Note that in the
forced-inclusion branch the Python code does not reset `para_chunk_parts`. -/
def paraStep (heading : String) (maxTokens : Nat)
    (st : List String × List String × Nat) (para : String) :
    List String × List String × Nat :=
  let (chunks, parts, tok) := st
  let est := estimate_tokens para
  if tok + est > maxTokens then
    let chunks := if parts ≠ [] then chunks ++ [joinNN parts] else chunks
    if est > maxTokens then
      (chunks ++ [if heading ≠ "" then heading ++ "\n" ++ para else para], parts, tok)
    else
      (chunks, [para], est)
  else
    (chunks, parts ++ [para], tok + est)

/-- One iteration of the `for heading, content in sections` loop of
`create_chunks`; the state is `(chunks, current_chunk_parts, current_tokens)`. -/
def sectStep (maxTokens : Nat) (st : List String × List String × Nat)
    (sec : String × String) : List String × List String × Nat :=
  let (chunks, parts, tok) := st
  let heading := sec.1
  let content := sec.2
  let sectionText := if heading ≠ "" then heading ++ "\n" ++ content else content
  let sectionTokens := estimate_tokens sectionText
  if sectionTokens > maxTokens then
    let chunks := if parts ≠ [] then chunks ++ [joinNN parts] else chunks
    let parts1 : List String := if parts ≠ [] then [] else parts
    let tok1 := if parts ≠ [] then 0 else tok
    let paragraphs := (splitNN content.data).map (fun l => (⟨l⟩ : String))
    let pinit : List String × Nat :=
      if heading ≠ "" then ([heading], estimate_tokens heading) else ([], 0)
    let pst := paragraphs.foldl (paraStep heading maxTokens) (chunks, pinit.1, pinit.2)
    let chunks2 :=
      if pst.2.1 ≠ [] then pst.1 ++ [joinNN pst.2.1] else pst.1
    (chunks2, parts1, tok1)
  else if tok + sectionTokens > maxTokens then
    let chunks := if parts ≠ [] then chunks ++ [joinNN parts] else chunks
    (chunks, [sectionText], sectionTokens)
  else
    (chunks, parts ++ [sectionText], tok + sectionTokens)

/-- `create_chunks`. -/
def create_chunks (wikitext : String) (maxTokens : Nat) : List String :=
  let sections := split_by_sections wikitext
  if sections = [] then [wikitext] else
  let st := sections.foldl (sectStep maxTokens) ([], [], 0)
  let chunks := if st.2.1 ≠ [] then st.1 ++ [joinNN st.2.1] else st.1
  if chunks = [] then [wikitext] else chunks

/-- Sum of the token estimates of a chunk's constituent parts. -/
def sumEst (parts : List String) : Nat :=
  (parts.map estimate_tokens).sum

/-- The packable units contributed by one section of the input: the section's
own text when its estimate fits the budget, and otherwise — when
`create_chunks` descends to the paragraph loop — its heading (if any) and the
paragraphs of its content. -/
def sectionUnits (maxTokens : Nat) (sec : String × String) : List String :=
  if estimate_tokens (if sec.1 ≠ "" then sec.1 ++ "\n" ++ sec.2 else sec.2) >
      maxTokens then
    (if sec.1 ≠ "" then [sec.1] else []) ++
      (splitNN sec.2.data).map (fun l => (⟨l⟩ : String))
  else [if sec.1 ≠ "" then sec.1 ++ "\n" ++ sec.2 else sec.2]

/-- All packable units of the input at the given budget: the units of each of
its sections. -/
def chunkUnits (wikitext : String) (maxTokens : Nat) : List String :=
  (split_by_sections wikitext).flatMap (sectionUnits maxTokens)

/-- Amended budget invariant for one chunk, relative to the list `units` of
packable units derived from the input: either the chunk is the `"\n\n"` join
of units whose token estimates sum to at most the budget, or it was emitted
on an overflow path around a single unit whose own estimate exceeds the
budget (an atomic paragraph, optionally prefixed by its section heading, or a
lone oversized heading). -/
def GoodChunk (units : List String) (maxTokens : Nat) (c : String) : Prop :=
  (∃ parts, parts ≠ [] ∧ (∀ p ∈ parts, p ∈ units) ∧ c = joinNN parts ∧
    sumEst parts ≤ maxTokens) ∨
  (∃ p, p ∈ units ∧ maxTokens < estimate_tokens p ∧
    (c = p ∨ ∃ h, h ∈ units ∧ h ≠ "" ∧ c = h ++ "\n" ++ p))

/-! ## The parsed-document model (`mwparserfromhell` interface)

A parsed document is an ordered list of nodes.  A template node has a name
and an ordered parameter list; every parameter records its name, whether its
key is written explicitly (`showkey`) and its value, which is itself parsed
wikicode and may contain nested templates.  All other node kinds (text,
headings, links, tags, comments) serialize to their source text and are
collapsed into `other`.  `str(node)` reproduces the node's source text. -/

mutual
inductive WNode where
  | template (name : String) (params : List WParam) : WNode
  | other (text : String) : WNode
inductive WParam where
  | mk (name : String) (showkey : Bool) (value : List WNode) : WParam
end

def WParam.pname : WParam → String
  | .mk n _ _ => n

def WParam.showkey : WParam → Bool
  | .mk _ sk _ => sk

def WParam.value : WParam → List WNode
  | .mk _ _ v => v

mutual
/-- `str(node)`. -/
def serializeNode : WNode → String
  | .template n ps => "\x7b\x7b" ++ n ++ serializeParams ps ++ "\x7d\x7d"
  | .other s => s
/-- The `|`-separated parameter part of `str(template)`. -/
def serializeParams : List WParam → String
  | [] => ""
  | p :: ps => "|" ++ serializeParam p ++ serializeParams ps
/-- `str(param)`: `name=value` when the key is explicit, else just the value. -/
def serializeParam : WParam → String
  | .mk n sk v => (if sk then n ++ "=" else "") ++ serializeValue v
/-- `str(wikicode)`: concatenation of the nodes' source texts. -/
def serializeValue : List WNode → String
  | [] => ""
  | x :: xs => serializeNode x ++ serializeValue xs
end

/-! ## Masking (`mask_templates_for_translation`) -/

/-- Template-name placeholder `⟪TPL_i⟫`. -/
def phTPL (i : Nat) : String :=
  "⟪TPL_" ++ Nat.repr i ++ "⟫"

/-- Parameter-key placeholder `⟪K_i_j⟫`. -/
def phK (i j : Nat) : String :=
  "⟪K_" ++ Nat.repr i ++ "_" ++ Nat.repr j ++ "⟫"

/-- Python `' | '.join`. -/
def joinSepBar : List String → String
  | [] => ""
  | [a] => a
  | a :: rest => a ++ " | " ++ joinSepBar rest

/-- Mapping entries allocated for one template: its name placeholder followed
by one key placeholder per parameter. -/
def tplEntries (i : Nat) (n : String) (ps : List WParam) : List (String × String) :=
  (phTPL i, n) :: ps.enum.map (fun jp => (phK i jp.1, jp.2.pname))

/-- Masked rendering of one template: placeholders for the name and the keys,
parameter values left as literal text, parameters joined with `' | '`.  The
template's own name appears only through its placeholder. -/
def maskedTplText (i : Nat) (ps : List WParam) : String :=
  "\x7b\x7b" ++ phTPL i ++
    (if ps.isEmpty then ""
     else "|" ++ joinSepBar
       (ps.enum.map (fun jp => phK i jp.1 ++ "=" ++ serializeValue jp.2.value))) ++
  "\x7d\x7d"

/-- The node loop of `mask_templates_for_translation`, carrying `tpl_index`.
Only top-level template nodes are masked; every other node passes through as
its source text. -/
def maskNodes : List WNode → Nat → String × List (String × String)
  | [], _ => ("", [])
  | .other s :: rest, i =>
    let r := maskNodes rest i
    (s ++ r.1, r.2)
  | .template n ps :: rest, i =>
    let r := maskNodes rest (i + 1)
    (maskedTplText i ps ++ r.1, tplEntries i n ps ++ r.2)

/-- `mask_templates_for_translation` on a parsed document. -/
def mask_templates_doc (doc : List WNode) : String × List (String × String) :=
  maskNodes doc 0

/-- `mask_templates_for_translation` at the string level: the `parse`
abstraction is a parameter; on parse failure the input text is returned
unchanged with an empty mapping. -/
def mask_templates_for_translation (parse : String → Option (List WNode))
    (wikitext : String) : String × List (String × String) :=
  match parse wikitext with
  | none => (wikitext, [])
  | some doc => mask_templates_doc doc

/-! ## Unmasking (`restore_masked_templates`) -/

/-- Python `s.replace(pat, rep)` on character lists: replace every
non-overlapping occurrence, scanning left to right. -/
def creplaceGo (p0 : Char) (prest rep : List Char) : List Char → List Char
  | [] => []
  | c :: cs =>
    if (p0 :: prest).isPrefixOf (c :: cs) then
      rep ++ creplaceGo p0 prest rep (cs.drop prest.length)
    else
      c :: creplaceGo p0 prest rep cs
termination_by l => l.length
decreasing_by
  · simp
    omega
  · simp

/-- Python `s.replace(pat, rep)` (empty pattern inserts `rep` around every
character, as in Python). -/
def creplace (s pat rep : List Char) : List Char :=
  match pat with
  | [] => rep ++ s.flatMap (fun c => c :: rep)
  | p0 :: prest => creplaceGo p0 prest rep s

/-- Python `str.replace` on Lean strings. -/
def pyReplace (s pat rep : String) : String :=
  ⟨creplace s.data pat.data rep.data⟩

/-- Code-point lexicographic `≤` on character lists (Python string order). -/
def charsLE : List Char → List Char → Bool
  | [], _ => true
  | _ :: _, [] => false
  | a :: as, b :: bs => if a = b then charsLE as bs else decide (a < b)

/-- The sort key `lambda x: (-len(x), x)` of `restore_masked_templates`:
longer strings first, ties broken lexicographically. -/
def keyLE (a b : String) : Bool :=
  decide (b.length < a.length) ||
    (decide (a.length = b.length) && charsLE a.data b.data)

def insertSorted (x : String) : List String → List String
  | [] => [x]
  | y :: ys => if keyLE x y then x :: y :: ys else y :: insertSorted x ys

/-- Python `sorted(keys, key=lambda x: (-len(x), x))`. -/
def sortKeys (l : List String) : List String :=
  l.foldr insertSorted []

/-- Python dict lookup on an association list (first matching key). -/
def alistLookup (k : String) : List (String × String) → Option String
  | [] => none
  | (k2, v) :: rest => if k2 = k then some v else alistLookup k rest

/-- Python dict lookup for the protected-value registry. -/
def valsLookup (k : Nat × String) : List ((Nat × String) × String) → Option String
  | [] => none
  | (k2, v) :: rest => if k2 = k then some v else valsLookup k rest

/-- `restore_masked_templates`: replace each placeholder by its original,
longest placeholders first. -/
def restore_masked_templates (maskedText : String)
    (mapping : List (String × String)) : String :=
  (sortKeys (mapping.map Prod.fst)).foldl
    (fun acc ph => pyReplace acc ph ((alistLookup ph mapping).getD "")) maskedText

/-! ## Protected parameters (`restore_protected_template_params`) -/

/-- Python `str.lower()` on one character (ASCII and Latin-1 letters; the
protected-parameter names only require ASCII). -/
def pyLowerChar (c : Char) : Char :=
  if 'A' ≤ c ∧ c ≤ 'Z' then Char.ofNat (c.toNat + 32)
  else if 'À' ≤ c ∧ c ≤ 'Þ' ∧ c ≠ '×' then Char.ofNat (c.toNat + 32)
  else c

/-- Removal of a combining diacritic after NFD decomposition, for the
lowercase Latin-1 letters (the inputs produced by `pyLowerChar`). -/
def stripDiacriticChar (c : Char) : Char :=
  if c = 'à' ∨ c = 'á' ∨ c = 'â' ∨ c = 'ã' ∨ c = 'ä' ∨ c = 'å' then 'a'
  else if c = 'è' ∨ c = 'é' ∨ c = 'ê' ∨ c = 'ë' then 'e'
  else if c = 'ì' ∨ c = 'í' ∨ c = 'î' ∨ c = 'ï' then 'i'
  else if c = 'ò' ∨ c = 'ó' ∨ c = 'ô' ∨ c = 'õ' ∨ c = 'ö' then 'o'
  else if c = 'ù' ∨ c = 'ú' ∨ c = 'û' ∨ c = 'ü' then 'u'
  else if c = 'ç' then 'c'
  else if c = 'ñ' then 'n'
  else if c = 'ý' ∨ c = 'ÿ' then 'y'
  else c

/-- `_normalize_param_name`: strip, lowercase, remove diacritics. -/
def normalize_param_name (name : String) : String :=
  ⟨((pyStripChars name.data).map pyLowerChar).map stripDiacriticChar⟩

/-- `PROTECTED_TEMPLATE_PARAMS`: parameter names whose values must never be
altered by the transformation. -/
def PROTECTED_TEMPLATE_PARAMS : List String :=
  ["glyph", "icone", "bannière", "banniere", "photo de l\x27agriculteur",
   "logo", "photo d\x27illustration", "logo organisme", "image", "class",
   "type de page", "frame", "query"]

mutual
/-- `wikicode.filter_templates()` with its default recursive traversal: every
template in the document, in pre-order (a template before the templates
nested inside its parameter values). -/
def filterTemplatesNodes : List WNode → List (String × List WParam)
  | [] => []
  | .other _ :: rest => filterTemplatesNodes rest
  | .template n ps :: rest =>
    (n, ps) :: (filterTemplatesParams ps ++ filterTemplatesNodes rest)
def filterTemplatesParams : List WParam → List (String × List WParam)
  | [] => []
  | .mk _ _ v :: ps => filterTemplatesNodes v ++ filterTemplatesParams ps
end

/-- Python dict assignment `d[k] = v`: update in place or append. -/
def dinsert (k : Nat × String) (v : String) :
    List ((Nat × String) × String) → List ((Nat × String) × String)
  | [] => [(k, v)]
  | (k', v') :: rest =>
    if k' = k then (k', v) :: rest else (k', v') :: dinsert k v rest

/-- The collection loop over one template's parameters: record the serialized
value of every parameter whose normalized name is protected, keyed by the
template's occurrence index and the normalized name. -/
def collectParams (idx : Nat) (ps : List WParam)
    (acc : List ((Nat × String) × String)) : List ((Nat × String) × String) :=
  ps.foldl (fun acc p =>
    let norm := normalize_param_name p.pname
    if PROTECTED_TEMPLATE_PARAMS.contains norm then
      dinsert (idx, norm) (serializeValue p.value) acc
    else acc) acc

/-- `original_values`: `(template_index, normalized_param_name) -> value`
collected from the original document's recursive template enumeration. -/
def collectOriginalValues (doc : List WNode) : List ((Nat × String) × String) :=
  ((filterTemplatesNodes doc).enum).foldl
    (fun acc it => collectParams it.1 it.2.2 acc) []

mutual
/-- The replacement pass over the transformed document.  The counter threads
the position in the precomputed recursive template enumeration; replacing a
parameter value detaches the templates nested inside the old value, which
then still consume enumeration indices but can no longer affect the tree. -/
def restoreNodes (vals : List ((Nat × String) × String)) :
    List WNode → Nat → List WNode × Nat
  | [], i => ([], i)
  | .other s :: rest, i =>
    let r := restoreNodes vals rest i
    (.other s :: r.1, r.2)
  | .template n ps :: rest, i =>
    let pr := restoreParams vals i ps (i + 1)
    let r := restoreNodes vals rest pr.2
    (.template n pr.1 :: r.1, r.2)
/-- Parameter loop of the replacement pass for the template with occurrence
index `tplIdx`; the second `Nat` is the running enumeration counter. -/
def restoreParams (vals : List ((Nat × String) × String)) (tplIdx : Nat) :
    List WParam → Nat → List WParam × Nat
  | [], ctr => ([], ctr)
  | .mk nm sk v :: ps, ctr =>
    match valsLookup (tplIdx, normalize_param_name nm) vals with
    | some orig =>
      if serializeValue v ≠ orig then
        let pr := restoreParams vals tplIdx ps (ctr + (filterTemplatesNodes v).length)
        (.mk nm sk [.other orig] :: pr.1, pr.2)
      else
        let vr := restoreNodes vals v ctr
        let pr := restoreParams vals tplIdx ps vr.2
        (.mk nm sk vr.1 :: pr.1, pr.2)
    | none =>
      let vr := restoreNodes vals v ctr
      let pr := restoreParams vals tplIdx ps vr.2
      (.mk nm sk vr.1 :: pr.1, pr.2)
end

/-- `restore_protected_template_params` on parsed documents. -/
def restore_protected_doc (origDoc transDoc : List WNode) : List WNode :=
  let vals := collectOriginalValues origDoc
  if vals = [] then transDoc else (restoreNodes vals transDoc 0).1

/-- `restore_protected_template_params` at the string level, with the `parse`
abstraction as a parameter; if either parse fails the translated text is
returned untouched. -/
def restore_protected_template_params (parse : String → Option (List WNode))
    (originalWikitext translatedWikitext : String) : String :=
  match parse originalWikitext, parse translatedWikitext with
  | some origDoc, some transDoc =>
    let vals := collectOriginalValues origDoc
    if vals = [] then translatedWikitext
    else serializeValue (restoreNodes vals transDoc 0).1
  | _, _ => translatedWikitext

/-! ## Sub-resource extraction (`extract_json_template_params`) -/

/-- `extract_json_template_params` on a parsed document: stripped values of
every parameter named `json` over the recursive template enumeration. -/
def extract_json_doc (doc : List WNode) : List String :=
  (filterTemplatesNodes doc).flatMap (fun t =>
    t.2.filterMap (fun p =>
      if normalize_param_name p.pname = "json" then
        some (pyStrip (serializeValue p.value))
      else none))

/-- `extract_json_template_params` at the string level; parse failure yields
the empty list. -/
def extract_json_template_params (parse : String → Option (List WNode))
    (wikitext : String) : List String :=
  match parse wikitext with
  | none => []
  | some doc => extract_json_doc doc

/-! ## Specification-side definitions used to state the claims -/

/-- Parameter-normalized serialization of a document: like `serializeValue`,
but every top-level template is rendered the way the mask/unmask pipeline
rebuilds it — every parameter in explicit `key=value` form, parameters joined
with `' | '`. -/
def normSerializeNode : WNode → String
  | .other s => s
  | .template n ps =>
    "\x7b\x7b" ++ n ++
      (if ps.isEmpty then ""
       else "|" ++ joinSepBar
         (ps.map (fun p => p.pname ++ "=" ++ serializeValue p.value))) ++
    "\x7d\x7d"

/-- Parameter-normalized serialization of a whole document. -/
def normSerialize (doc : List WNode) : String :=
  String.join (doc.map normSerializeNode)

/-- The top-level template nodes of a document, in order. -/
def topTemplates (doc : List WNode) : List (String × List WParam) :=
  doc.filterMap (fun n =>
    match n with
    | .template nm ps => some (nm, ps)
    | .other _ => none)

/-- Declarative description of the mask mapping: entries for the names and
parameter keys of the top-level templates, enumerated in document order. -/
def topMaskMapping (doc : List WNode) : List (String × String) :=
  (topTemplates doc).enum.flatMap (fun it => tplEntries it.1 it.2.1 it.2.2)

/-- Numeric value of a decimal digit character. -/
def charVal (c : Char) : Nat :=
  c.toNat - 48

/-- Value of a big-endian decimal digit string. -/
def digitsVal (l : List Char) : Nat :=
  l.foldl (fun a c => 10 * a + charVal c) 0

/-- Whether `pat` occurs as a contiguous substring of the second list. -/
def occursIn (pat : List Char) : List Char → Bool
  | [] => pat.isEmpty
  | c :: cs => pat.isPrefixOf (c :: cs) || occursIn pat cs

/-- No opening placeholder delimiter `⟪` among the characters. -/
def charsClean (l : List Char) : Bool :=
  l.all (fun c => !(c = '⟪'))

/-- Shape of a generated placeholder: `⟪core⟫` with a delimiter-free core. -/
def KeyShaped (k : List Char) : Prop :=
  ∃ core, k = '⟪' :: core ++ ['⟫'] ∧ ∀ c ∈ core, c ≠ '⟪' ∧ c ≠ '⟫'

mutual
/-- One node's strings contain no placeholder delimiter `⟪`. -/
def nodeClean : WNode → Bool
  | .other s => charsClean s.data
  | .template n ps => charsClean n.data && paramsCleanB ps
/-- Parameter lists whose strings contain no placeholder delimiter. -/
def paramsCleanB : List WParam → Bool
  | [] => true
  | .mk n _ v :: ps => (charsClean n.data && nodesClean v) && paramsCleanB ps
/-- Documents whose strings contain no placeholder delimiter. -/
def nodesClean : List WNode → Bool
  | [] => true
  | x :: xs => nodeClean x && nodesClean xs
end

/-- A token of the masked text: either literal text or a placeholder. -/
inductive CTok where
  | plain (l : List Char)
  | ph (k : List Char)

def ctokChars : CTok → List Char
  | .plain l => l
  | .ph k => k

/-- Concatenation of a token list. -/
def ctoksJoin (ts : List CTok) : List Char :=
  (ts.map ctokChars).flatten

/-- Token decomposition of the masked rendering of a template's parameters,
starting at parameter index `j`. -/
def paramsToks (i : Nat) : Nat → List WParam → List CTok
  | _, [] => []
  | j, p :: ps =>
    .plain (if j = 0 then ['|'] else [' ', '|', ' ']) ::
    .ph (phK i j).data ::
    .plain ('=' :: (serializeValue p.value).data) ::
    paramsToks i (j + 1) ps

/-- Token decomposition of `maskedTplText`. -/
def tplToks (i : Nat) (ps : List WParam) : List CTok :=
  .plain ['\x7b', '\x7b'] :: .ph (phTPL i).data ::
    (paramsToks i 0 ps ++ [.plain ['\x7d', '\x7d']])

/-- Token decomposition of the masked document text. -/
def maskToks : List WNode → Nat → List CTok
  | [], _ => []
  | .other s :: rest, i => .plain s.data :: maskToks rest i
  | .template _ ps :: rest, i => tplToks i ps ++ maskToks rest (i + 1)

/-- Resolution of a placeholder token through the mapping. -/
def resolveTok (m : List (String × String)) : CTok → CTok
  | .plain l => .plain l
  | .ph k => .plain ((alistLookup ⟨k⟩ m).getD "").data

/-- Effect of one `str.replace` call on a token. -/
def replTok (pat rep : List Char) : CTok → CTok
  | .plain l => .plain l
  | .ph k => if k = pat then .plain rep else .ph k

/-- Nodes that are not templates. -/
def isOtherNode : WNode → Bool
  | .other _ => true
  | .template _ _ => false

/-- A parameter value consisting of literal text only. -/
def valueFlat (v : List WNode) : Bool :=
  v.all isOtherNode

/-- All parameter values of the list are literal text. -/
def paramsFlat (ps : List WParam) : Bool :=
  ps.all (fun p => valueFlat p.value)

/-- A flat document: templates occur only at top level, and their parameter
values are literal text. -/
def nodesFlat (doc : List WNode) : Bool :=
  doc.all (fun n =>
    match n with
    | .other _ => true
    | .template _ ps => paramsFlat ps)

/-- The document contains no parameter whose normalized name is protected. -/
def docNoProtected (doc : List WNode) : Bool :=
  (filterTemplatesNodes doc).all (fun t =>
    t.2.all (fun p =>
      !(PROTECTED_TEMPLATE_PARAMS.contains (normalize_param_name p.pname))))

/-- Effect of the replacement pass on one parameter of the template with
occurrence index `t`, when the parameter's value is flat. -/
def substParam (vals : List ((Nat × String) × String)) (t : Nat) (p : WParam) : WParam :=
  match valsLookup (t, normalize_param_name p.pname) vals with
  | some orig =>
    if serializeValue p.value ≠ orig then .mk p.pname p.showkey [.other orig] else p
  | none => p

/-- The replacement pass on a flat document: each top-level template's
parameters are substituted at the template's running occurrence index. -/
def restoreFlat (vals : List ((Nat × String) × String)) : List WNode → Nat → List WNode
  | [], _ => []
  | .other s :: rest, i => .other s :: restoreFlat vals rest i
  | .template n ps :: rest, i =>
    .template n (ps.map (substParam vals i)) :: restoreFlat vals rest (i + 1)

mutual
/-- Frame relation on documents: the second document differs from the first
only in the values of parameters whose normalized name is protected. -/
inductive FrameNodes : List WNode → List WNode → Prop where
  | nil : FrameNodes [] []
  | cons {a b : WNode} {l1 l2 : List WNode} :
      FrameNode a b → FrameNodes l1 l2 → FrameNodes (a :: l1) (b :: l2)
/-- Frame relation on single nodes. -/
inductive FrameNode : WNode → WNode → Prop where
  | other (s : String) : FrameNode (.other s) (.other s)
  | template {n : String} {ps qs : List WParam} :
      FrameParams ps qs → FrameNode (.template n ps) (.template n qs)
/-- Frame relation on parameter lists. -/
inductive FrameParams : List WParam → List WParam → Prop where
  | nil : FrameParams [] []
  | cons {p q : WParam} {l1 l2 : List WParam} :
      FrameParam p q → FrameParams l1 l2 → FrameParams (p :: l1) (q :: l2)
/-- Frame relation on parameters: name and key visibility never change; the
value may change only if the normalized name is protected, and otherwise may
differ only through the frame relation on its nested nodes. -/
inductive FrameParam : WParam → WParam → Prop where
  | prot {nm : String} {sk : Bool} {v w : List WNode} :
      PROTECTED_TEMPLATE_PARAMS.contains (normalize_param_name nm) = true →
      FrameParam (.mk nm sk v) (.mk nm sk w)
  | keep {nm : String} {sk : Bool} {v w : List WNode} :
      FrameNodes v w → FrameParam (.mk nm sk v) (.mk nm sk w)
end

mutual
/-- Every protected-named parameter anywhere inside the node has a
literal-text value; templates may still occur in non-protected parameter
values. -/
def protFlatNode : WNode → Bool
  | .other _ => true
  | .template _ ps => protFlatParams ps
/-- Parameter lists whose protected-named parameters have literal-text
values, recursively through nested values. -/
def protFlatParams : List WParam → Bool
  | [] => true
  | .mk nm _ v :: ps =>
    ((!(PROTECTED_TEMPLATE_PARAMS.contains (normalize_param_name nm)) ||
        valueFlat v) && protFlatNodes v) && protFlatParams ps
/-- Documents in which every protected-named parameter value, anywhere, is
literal text. -/
def protFlatNodes : List WNode → Bool
  | [] => true
  | n :: ns => protFlatNode n && protFlatNodes ns
end

/-- A concrete two-parameter template document used to evaluate the
mask/unmask round trip. -/
def exDocC1 : List WNode :=
  [.template "Foo" [.mk "a" true [.other "1"], .mk "b" true [.other "2"]]]

/-! ## Theorems: chunking -/

theorem sumEst_append (parts : List String) (p : String) :
    sumEst (parts ++ [p]) = sumEst parts + estimate_tokens p := by
  simp [sumEst]

theorem joinNN_single (a : String) : joinNN [a] = a := rfl

/-- A nonempty accumulator satisfying the loop invariant flushes to a good
chunk. -/
theorem goodChunk_flush (U : List String) (maxT : Nat) (heading : String)
    (parts : List String) (tok : Nat) (h2 : tok = sumEst parts)
    (h3 : tok ≤ maxT ∨ (parts = [heading] ∧ maxT < estimate_tokens heading))
    (h4 : ∀ p ∈ parts, p ∈ U)
    (hne : parts ≠ []) : GoodChunk U maxT (joinNN parts) := by
  rcases h3 with h3 | ⟨hp, hb⟩
  · exact Or.inl ⟨parts, hne, h4, rfl, h2 ▸ h3⟩
  · subst hp
    exact Or.inr ⟨heading, h4 heading (List.mem_cons_self _ _), hb,
      Or.inl (joinNN_single heading)⟩

theorem paraStep_inv (U : List String) (heading : String) (maxT : Nat)
    (chunks parts : List String) (tok : Nat) (para : String)
    (h1 : ∀ c ∈ chunks, GoodChunk U maxT c)
    (h2 : tok = sumEst parts)
    (h3 : tok ≤ maxT ∨ (parts = [heading] ∧ maxT < estimate_tokens heading))
    (h4 : ∀ p ∈ parts, p ∈ U)
    (hpU : para ∈ U)
    (hhU : heading ≠ "" → heading ∈ U) :
    (∀ c ∈ (paraStep heading maxT (chunks, parts, tok) para).1, GoodChunk U maxT c) ∧
    (paraStep heading maxT (chunks, parts, tok) para).2.2 =
      sumEst (paraStep heading maxT (chunks, parts, tok) para).2.1 ∧
    ((paraStep heading maxT (chunks, parts, tok) para).2.2 ≤ maxT ∨
      ((paraStep heading maxT (chunks, parts, tok) para).2.1 = [heading] ∧
        maxT < estimate_tokens heading)) ∧
    (∀ p ∈ (paraStep heading maxT (chunks, parts, tok) para).2.1, p ∈ U) := by
  have hflush : ∀ c ∈ (if parts ≠ [] then chunks ++ [joinNN parts] else chunks),
      GoodChunk U maxT c := by
    by_cases hp : parts = []
    · simpa [hp] using h1
    · intro c hc
      simp only [if_pos hp, List.mem_append, List.mem_singleton] at hc
      rcases hc with hc | hc
      · exact h1 c hc
      · exact hc ▸ goodChunk_flush U maxT heading parts tok h2 h3 h4 hp
  unfold paraStep
  by_cases hov : tok + estimate_tokens para > maxT
  · simp only [if_pos hov]
    by_cases hforce : estimate_tokens para > maxT
    · simp only [if_pos hforce]
      refine ⟨?_, h2, h3, h4⟩
      intro c hc
      simp only [List.mem_append, List.mem_singleton] at hc
      rcases hc with hc | hc
      · exact hflush c hc
      · subst hc
        refine Or.inr ⟨para, hpU, hforce, ?_⟩
        by_cases hh : heading = ""
        · simp [hh]
        · exact Or.inr ⟨heading, hhU hh, hh, by simp [hh]⟩
    · simp only [if_neg hforce]
      refine ⟨hflush, by simp [sumEst], Or.inl (by omega), ?_⟩
      intro p hp
      rw [List.mem_singleton.mp hp]
      exact hpU
  · simp only [if_neg hov]
    refine ⟨h1, by simp [sumEst_append, h2], Or.inl (by omega), ?_⟩
    intro p hp
    rcases List.mem_append.mp hp with hp | hp
    · exact h4 p hp
    · rw [List.mem_singleton.mp hp]
      exact hpU

theorem paraFold_inv (U : List String) (heading : String) (maxT : Nat)
    (paras : List String)
    (hhU : heading ≠ "" → heading ∈ U) :
    ∀ (chunks parts : List String) (tok : Nat),
    (∀ p ∈ paras, p ∈ U) →
    (∀ c ∈ chunks, GoodChunk U maxT c) → tok = sumEst parts →
    (tok ≤ maxT ∨ (parts = [heading] ∧ maxT < estimate_tokens heading)) →
    (∀ p ∈ parts, p ∈ U) →
    (∀ c ∈ (paras.foldl (paraStep heading maxT) (chunks, parts, tok)).1,
      GoodChunk U maxT c) ∧
    (paras.foldl (paraStep heading maxT) (chunks, parts, tok)).2.2 =
      sumEst (paras.foldl (paraStep heading maxT) (chunks, parts, tok)).2.1 ∧
    ((paras.foldl (paraStep heading maxT) (chunks, parts, tok)).2.2 ≤ maxT ∨
      ((paras.foldl (paraStep heading maxT) (chunks, parts, tok)).2.1 = [heading] ∧
        maxT < estimate_tokens heading)) ∧
    (∀ p ∈ (paras.foldl (paraStep heading maxT) (chunks, parts, tok)).2.1, p ∈ U) := by
  induction paras with
  | nil => intro chunks parts tok _ h1 h2 h3 h4; exact ⟨h1, h2, h3, h4⟩
  | cons p ps ih =>
    intro chunks parts tok hpsU h1 h2 h3 h4
    simp only [List.foldl_cons]
    have hstep := paraStep_inv U heading maxT chunks parts tok p h1 h2 h3 h4
      (hpsU p (List.mem_cons_self _ _)) hhU
    have heta : paraStep heading maxT (chunks, parts, tok) p =
        ((paraStep heading maxT (chunks, parts, tok) p).1,
         (paraStep heading maxT (chunks, parts, tok) p).2.1,
         (paraStep heading maxT (chunks, parts, tok) p).2.2) := rfl
    rw [heta]
    exact ih _ _ _ (fun q hq => hpsU q (List.mem_cons_of_mem _ hq))
      hstep.1 hstep.2.1 hstep.2.2.1 hstep.2.2.2

theorem sectStep_inv (U : List String) (maxT : Nat) (chunks parts : List String)
    (tok : Nat) (sec : String × String)
    (h1 : ∀ c ∈ chunks, GoodChunk U maxT c)
    (h2 : tok = sumEst parts) (h3 : tok ≤ maxT)
    (h4 : ∀ p ∈ parts, p ∈ U)
    (hU : ∀ u ∈ sectionUnits maxT sec, u ∈ U) :
    (∀ c ∈ (sectStep maxT (chunks, parts, tok) sec).1, GoodChunk U maxT c) ∧
    (sectStep maxT (chunks, parts, tok) sec).2.2 =
      sumEst (sectStep maxT (chunks, parts, tok) sec).2.1 ∧
    (sectStep maxT (chunks, parts, tok) sec).2.2 ≤ maxT ∧
    (∀ p ∈ (sectStep maxT (chunks, parts, tok) sec).2.1, p ∈ U) := by
  have hflush : ∀ c ∈ (if parts ≠ [] then chunks ++ [joinNN parts] else chunks),
      GoodChunk U maxT c := by
    by_cases hp : parts = []
    · simpa [hp] using h1
    · intro c hc
      simp only [if_pos hp, List.mem_append, List.mem_singleton] at hc
      rcases hc with hc | hc
      · exact h1 c hc
      · exact hc ▸ Or.inl ⟨parts, hp, h4, rfl, h2 ▸ h3⟩
  unfold sectStep
  by_cases hbig :
      estimate_tokens (if sec.1 ≠ "" then sec.1 ++ "\n" ++ sec.2 else sec.2) > maxT
  · simp only [if_pos hbig]
    have hU2 : ∀ u ∈ (if sec.1 ≠ "" then [sec.1] else []) ++
        (splitNN sec.2.data).map (fun l => (⟨l⟩ : String)), u ∈ U := by
      intro u hu
      apply hU
      simp only [sectionUnits, if_pos hbig]
      exact hu
    have hhU : sec.1 ≠ "" → sec.1 ∈ U := by
      intro hh
      apply hU2
      rw [if_pos hh]
      exact List.mem_append_left _ (List.mem_cons_self _ _)
    have hparasU : ∀ p ∈ (splitNN sec.2.data).map (fun l => (⟨l⟩ : String)),
        p ∈ U := by
      intro p hp
      exact hU2 p (List.mem_append_right _ hp)
    set pinit : List String × Nat :=
      if sec.1 ≠ "" then ([sec.1], estimate_tokens sec.1) else ([], 0) with hpinit
    have hinit2 : pinit.2 = sumEst pinit.1 := by
      by_cases hh : sec.1 = "" <;> simp [hpinit, hh, sumEst]
    have hinit3 : pinit.2 ≤ maxT ∨
        (pinit.1 = [sec.1] ∧ maxT < estimate_tokens sec.1) := by
      by_cases hh : sec.1 = ""
      · simp [hpinit, hh]
      · rcases le_or_lt (estimate_tokens sec.1) maxT with hle | hlt
        · exact Or.inl (by simp [hpinit, hh, hle])
        · exact Or.inr (by simp [hpinit, hh, hlt])
    have hinit4 : ∀ p ∈ pinit.1, p ∈ U := by
      by_cases hh : sec.1 = ""
      · simp [hpinit, hh]
      · intro p hp
        rw [hpinit, if_pos (show sec.1 ≠ "" from hh)] at hp
        rw [List.mem_singleton.mp hp]
        exact hhU hh
    have hfold := paraFold_inv U sec.1 maxT
      ((splitNN sec.2.data).map (fun l => (⟨l⟩ : String))) hhU
      (if parts ≠ [] then chunks ++ [joinNN parts] else chunks) pinit.1 pinit.2
      hparasU hflush hinit2 hinit3 hinit4
    refine ⟨?_, ?_, ?_, ?_⟩
    · intro c hc
      by_cases hpp :
          (((splitNN sec.2.data).map (fun l => (⟨l⟩ : String))).foldl
            (paraStep sec.1 maxT)
            ((if parts ≠ [] then chunks ++ [joinNN parts] else chunks),
              pinit.1, pinit.2)).2.1 = []
      · simp only [hpp, ne_eq, not_true_eq_false, if_false] at hc
        exact hfold.1 c hc
      · simp only [ne_eq, hpp, not_false_eq_true, if_true, List.mem_append,
          List.mem_singleton] at hc
        rcases hc with hc | hc
        · exact hfold.1 c hc
        · exact hc ▸ goodChunk_flush U maxT sec.1 _ _ hfold.2.1 hfold.2.2.1
            hfold.2.2.2 hpp
    · by_cases hp : parts = []
      · simpa [hp] using h2
      · simp [hp, sumEst]
    · by_cases hp : parts = []
      · simp only [hp, ne_eq, not_true_eq_false, if_false]
        exact h3
      · simp [hp]
    · by_cases hp : parts = []
      · simp only [hp, ne_eq, not_true_eq_false, if_false]
        intro p hp2
        simp at hp2
      · simp [hp]
  · simp only [if_neg hbig]
    have hst : (if sec.1 ≠ "" then sec.1 ++ "\n" ++ sec.2 else sec.2) ∈ U := by
      apply hU
      simp only [sectionUnits, if_neg hbig]
      exact List.mem_cons_self _ _
    by_cases hov :
        tok + estimate_tokens (if sec.1 ≠ "" then sec.1 ++ "\n" ++ sec.2 else sec.2) >
          maxT
    · simp only [if_pos hov]
      refine ⟨hflush, by simp [sumEst], by omega, ?_⟩
      intro p hp
      rw [List.mem_singleton.mp hp]
      exact hst
    · simp only [if_neg hov]
      refine ⟨h1, by simp [sumEst_append, h2], by omega, ?_⟩
      intro p hp
      rcases List.mem_append.mp hp with hp | hp
      · exact h4 p hp
      · rw [List.mem_singleton.mp hp]
        exact hst

theorem sectFold_inv (U : List String) (maxT : Nat) (secs : List (String × String)) :
    ∀ (chunks parts : List String) (tok : Nat),
    (∀ s ∈ secs, ∀ u ∈ sectionUnits maxT s, u ∈ U) →
    (∀ c ∈ chunks, GoodChunk U maxT c) → tok = sumEst parts → tok ≤ maxT →
    (∀ p ∈ parts, p ∈ U) →
    (∀ c ∈ (secs.foldl (sectStep maxT) (chunks, parts, tok)).1, GoodChunk U maxT c) ∧
    (secs.foldl (sectStep maxT) (chunks, parts, tok)).2.2 =
      sumEst (secs.foldl (sectStep maxT) (chunks, parts, tok)).2.1 ∧
    (secs.foldl (sectStep maxT) (chunks, parts, tok)).2.2 ≤ maxT ∧
    (∀ p ∈ (secs.foldl (sectStep maxT) (chunks, parts, tok)).2.1, p ∈ U) := by
  induction secs with
  | nil => intro chunks parts tok _ h1 h2 h3 h4; exact ⟨h1, h2, h3, h4⟩
  | cons s ss ih =>
    intro chunks parts tok hsU h1 h2 h3 h4
    simp only [List.foldl_cons]
    have hstep := sectStep_inv U maxT chunks parts tok s h1 h2 h3 h4
      (hsU s (List.mem_cons_self _ _))
    have heta : sectStep maxT (chunks, parts, tok) s =
        ((sectStep maxT (chunks, parts, tok) s).1,
         (sectStep maxT (chunks, parts, tok) s).2.1,
         (sectStep maxT (chunks, parts, tok) s).2.2) := rfl
    rw [heta]
    exact ih _ _ _ (fun s2 hs2 => hsU s2 (List.mem_cons_of_mem _ hs2))
      hstep.1 hstep.2.1 hstep.2.2.1 hstep.2.2.2

theorem splitNN_ne (l : List Char) : splitNN l ≠ [] := by
  simp [splitNN]

/-- Flushing a (possibly empty) accumulator onto the chunk list preserves
non-emptiness of the pair. -/
theorem ne_of_flush (chunks parts : List String)
    (h : chunks ≠ [] ∨ parts ≠ []) :
    (if parts ≠ [] then chunks ++ [joinNN parts] else chunks) ≠ [] := by
  by_cases hp : parts = []
  · rcases h with h | h
    · simpa [hp] using h
    · exact absurd hp h
  · simp [hp]

theorem paraStep_ne (heading : String) (maxT : Nat)
    (st : List String × List String × Nat) (para : String) :
    (paraStep heading maxT st para).1 ≠ [] ∨
      (paraStep heading maxT st para).2.1 ≠ [] := by
  obtain ⟨chunks, parts, tok⟩ := st
  unfold paraStep
  by_cases hov : tok + estimate_tokens para > maxT
  · simp only [if_pos hov]
    by_cases hforce : estimate_tokens para > maxT
    · simp [hforce]
    · simp [hforce]
  · simp [hov]

theorem paraFold_pres (heading : String) (maxT : Nat) (paras : List String) :
    ∀ st : List String × List String × Nat, (st.1 ≠ [] ∨ st.2.1 ≠ []) →
    ((paras.foldl (paraStep heading maxT) st).1 ≠ [] ∨
      (paras.foldl (paraStep heading maxT) st).2.1 ≠ []) := by
  induction paras with
  | nil => intro st h; exact h
  | cons p ps ih =>
    intro st _
    simp only [List.foldl_cons]
    exact ih _ (paraStep_ne heading maxT st p)

theorem paraFold_ne (heading : String) (maxT : Nat) (paras : List String)
    (st : List String × List String × Nat) (hps : paras ≠ []) :
    ((paras.foldl (paraStep heading maxT) st).1 ≠ [] ∨
      (paras.foldl (paraStep heading maxT) st).2.1 ≠ []) := by
  rcases paras with _ | ⟨p, ps⟩
  · exact absurd rfl hps
  · simp only [List.foldl_cons]
    exact paraFold_pres heading maxT ps _ (paraStep_ne heading maxT st p)

theorem sectStep_ne (maxT : Nat) (st : List String × List String × Nat)
    (sec : String × String) :
    (sectStep maxT st sec).1 ≠ [] ∨ (sectStep maxT st sec).2.1 ≠ [] := by
  obtain ⟨chunks, parts, tok⟩ := st
  unfold sectStep
  by_cases hbig :
      estimate_tokens (if sec.1 ≠ "" then sec.1 ++ "\n" ++ sec.2 else sec.2) > maxT
  · simp only [if_pos hbig]
    refine Or.inl (ne_of_flush _ _ ?_)
    exact paraFold_ne sec.1 maxT _ _ (by simpa using splitNN_ne sec.2.data)
  · simp only [if_neg hbig]
    by_cases hov :
        tok + estimate_tokens (if sec.1 ≠ "" then sec.1 ++ "\n" ++ sec.2 else sec.2) >
          maxT
    · simp only [if_pos hov]
      exact Or.inr (by simp)
    · simp only [if_neg hov]
      exact Or.inr (by simp)

theorem sectFold_pres (maxT : Nat) (secs : List (String × String)) :
    ∀ st : List String × List String × Nat, (st.1 ≠ [] ∨ st.2.1 ≠ []) →
    ((secs.foldl (sectStep maxT) st).1 ≠ [] ∨
      (secs.foldl (sectStep maxT) st).2.1 ≠ []) := by
  induction secs with
  | nil => intro st h; exact h
  | cons s ss ih =>
    intro st _
    simp only [List.foldl_cons]
    exact ih _ (sectStep_ne maxT st s)

theorem sectFold_ne (maxT : Nat) (secs : List (String × String))
    (st : List String × List String × Nat) (hs : secs ≠ []) :
    ((secs.foldl (sectStep maxT) st).1 ≠ [] ∨
      (secs.foldl (sectStep maxT) st).2.1 ≠ []) := by
  rcases secs with _ | ⟨s, ss⟩
  · exact absurd rfl hs
  · simp only [List.foldl_cons]
    exact sectFold_pres maxT ss _ (sectStep_ne maxT st s)

theorem split_by_sections_ne (w : String) : split_by_sections w ≠ [] := by
  simp [split_by_sections]

/-- Claim C2 (amended): every chunk returned by `create_chunks` is either the
blank-line join of packable units of the input — a section's text, or, for a
section whose own estimate exceeds the budget, its heading or one of the
paragraphs of its content — whose estimated token counts sum to at most
`max_tokens`, or a chunk emitted by an overflow path around a single unit (an
atomic paragraph, optionally prefixed by its heading, or a lone heading)
whose own estimate exceeds `max_tokens`.  The claim as stated — that the
chunk's own estimate `len // 3` is bounded by `max_tokens`, with at most one
forced exception — fails, because the greedy packing bounds the sum of the
units' estimates, which does not account for the separators inserted by the
join or for the flooring of each unit's estimate (see the counterexample),
and because one forced chunk may be emitted per oversized paragraph. -/
theorem C2_chunk_budget (wikitext : String) (maxTokens : Nat) (c : String)
    (hc : c ∈ create_chunks wikitext maxTokens) :
    GoodChunk (chunkUnits wikitext maxTokens) maxTokens c := by
  unfold create_chunks at hc
  rw [if_neg (split_by_sections_ne wikitext)] at hc
  have hsU : ∀ s ∈ split_by_sections wikitext,
      ∀ u ∈ sectionUnits maxTokens s, u ∈ chunkUnits wikitext maxTokens := by
    intro s hs u hu
    exact List.mem_flatMap.mpr ⟨s, hs, hu⟩
  have hinv := sectFold_inv (chunkUnits wikitext maxTokens) maxTokens
    (split_by_sections wikitext) [] [] 0 hsU (by simp) (by simp [sumEst]) (by simp)
    (by simp)
  have hne := sectFold_ne maxTokens (split_by_sections wikitext) ([], [], 0)
    (split_by_sections_ne wikitext)
  rw [if_neg (ne_of_flush _ _ hne)] at hc
  by_cases hpp :
      ((split_by_sections wikitext).foldl (sectStep maxTokens) ([], [], 0)).2.1 = []
  · rw [if_neg (by simpa using hpp)] at hc
    exact hinv.1 c hc
  · rw [if_pos hpp] at hc
    rcases List.mem_append.mp hc with hc | hc
    · exact hinv.1 c hc
    · rw [List.mem_singleton.mp hc]
      exact Or.inl ⟨_, hpp, hinv.2.2.2, rfl, hinv.2.1 ▸ hinv.2.2.1⟩

/-- Claim C2, counterexample to the claim as stated: the document has three
sections, each a unit of estimated size 2 and each consisting of a single
paragraph of estimate at most 2, so with budget 7 no forced-inclusion chunk
is possible; yet `create_chunks` packs all three sections into one chunk whose
own token estimate is 9 > 7. -/
theorem C2_chunk_budget_counterexample :
    split_by_sections "==a==\nbb\n==c==\ndd\n==e==\nff" =
      [("==a==", "bb"), ("==c==", "dd"), ("==e==", "ff")] ∧
    create_chunks "==a==\nbb\n==c==\ndd\n==e==\nff" 7 =
      ["==a==\nbb\n\n==c==\ndd\n\n==e==\nff"] ∧
    estimate_tokens "==a==\nbb\n\n==c==\ndd\n\n==e==\nff" = 9 ∧
    estimate_tokens "==a==\nbb" = 2 ∧
    estimate_tokens "==c==\ndd" = 2 ∧
    estimate_tokens "==e==\nff" = 2 ∧
    splitNN "bb".data = ["bb".data] ∧
    splitNN "dd".data = ["dd".data] ∧
    splitNN "ff".data = ["ff".data] := by
  decide

/-- Claim C2, witness for the amended theorem at a concrete input. -/
theorem C2_chunk_budget_witness :
    "x" ∈ create_chunks "x" 1 ∧ GoodChunk (chunkUnits "x" 1) 1 "x" :=
  ⟨by decide, C2_chunk_budget "x" 1 "x" (by decide)⟩

/-- Claim C3 (code bug): chunk coverage fails.  On the input
`"ab\n\ncdefghijklmnopqr"` with budget 4, the single section splits into the
two paragraphs `"ab"` and `"cdefghijklmnopqr"`; the second paragraph is
force-included, but the Python loop does not reset `para_chunk_parts`
afterwards, so the already-flushed paragraph `"ab"` is emitted a second time:
the result duplicates content instead of partitioning it. -/
theorem C3_coverage_failing_eval :
    create_chunks "ab\n\ncdefghijklmnopqr" 4 = ["ab", "cdefghijklmnopqr", "ab"] ∧
    splitNN "ab\n\ncdefghijklmnopqr".data = ["ab".data, "cdefghijklmnopqr".data] := by
  decide

/-- Claim C9: for every positive token budget, chunking the empty document
returns the one-element list containing the empty input, never the empty
list. -/
theorem C9_empty_input (n : Nat) (hn : 0 < n) : create_chunks "" n = [""] := by
  have hs : split_by_sections "" = [("", "")] := by decide
  unfold create_chunks
  rw [hs]
  have hest : estimate_tokens "" = 0 := by decide
  simp [sectStep, hest, joinNN]

/-- Claim C9, witness at the concrete budget 5. -/
theorem C9_empty_input_witness : 0 < 5 ∧ create_chunks "" 5 = [""] :=
  ⟨by decide, C9_empty_input 5 (by decide)⟩

/-! ## Theorems: protected-value restoration -/

/-- Claim C4: Scenario C.  For the original `\x7b\x7bInfobox|image=Cow.jpg|caption=A cow\x7d\x7d`
and the transformed `\x7b\x7bInfobox|image=Vache.jpg|caption=Une vache\x7d\x7d`, with
`image` in the protected registry and `caption` not in it, restoration
returns the text with `image=Cow.jpg` restored and `caption=Une vache` left
translated. -/
theorem C4_scenario_c :
    PROTECTED_TEMPLATE_PARAMS.contains "image" = true ∧
    PROTECTED_TEMPLATE_PARAMS.contains "caption" = false ∧
    serializeValue
      [.template "Infobox" [.mk "image" true [.other "Cow.jpg"],
        .mk "caption" true [.other "A cow"]]] =
      "\x7b\x7bInfobox|image=Cow.jpg|caption=A cow\x7d\x7d" ∧
    serializeValue
      [.template "Infobox" [.mk "image" true [.other "Vache.jpg"],
        .mk "caption" true [.other "Une vache"]]] =
      "\x7b\x7bInfobox|image=Vache.jpg|caption=Une vache\x7d\x7d" ∧
    restore_protected_doc
      [.template "Infobox" [.mk "image" true [.other "Cow.jpg"],
        .mk "caption" true [.other "A cow"]]]
      [.template "Infobox" [.mk "image" true [.other "Vache.jpg"],
        .mk "caption" true [.other "Une vache"]]] =
      [.template "Infobox" [.mk "image" true [.other "Cow.jpg"],
        .mk "caption" true [.other "Une vache"]]] ∧
    serializeValue (restore_protected_doc
      [.template "Infobox" [.mk "image" true [.other "Cow.jpg"],
        .mk "caption" true [.other "A cow"]]]
      [.template "Infobox" [.mk "image" true [.other "Vache.jpg"],
        .mk "caption" true [.other "Une vache"]]]) =
      "\x7b\x7bInfobox|image=Cow.jpg|caption=Une vache\x7d\x7d" := by
  refine ⟨by decide, by decide, by rfl, by rfl, ?_, ?_⟩ <;>
  simp [restore_protected_doc, collectOriginalValues, filterTemplatesNodes,
    filterTemplatesParams, collectParams, normalize_param_name, pyStripChars,
    pyLowerChar, stripDiacriticChar, PROTECTED_TEMPLATE_PARAMS, dinsert,
    restoreNodes, restoreParams, valsLookup, serializeValue, serializeNode,
    serializeParams, serializeParam, WParam.pname, WParam.value, pyIsSpace]

/-- Claim C6: on parse failure every core component degrades without raising:
masking returns its input with an empty mapping, extraction returns the empty
list, and restoration returns the transformed text unmodified (the functions
are total, so no exception reaches the caller). -/
theorem C6_parse_failure (parse : String → Option (List WNode)) (w o t : String)
    (hw : parse w = none) (ht : parse o = none ∨ parse t = none) :
    mask_templates_for_translation parse w = (w, []) ∧
    extract_json_template_params parse w = [] ∧
    restore_protected_template_params parse o t = t := by
  refine ⟨?_, ?_, ?_⟩
  · simp [mask_templates_for_translation, hw]
  · simp [extract_json_template_params, hw]
  · rcases ht with h | h
    · simp [restore_protected_template_params, h]
    · rcases hpo : parse o with _ | d <;>
        simp [restore_protected_template_params, h, hpo]

/-- Claim C6, witness with a concretely failing parse. -/
theorem C6_parse_failure_witness :
    mask_templates_for_translation (fun _ => none) "x" = ("x", []) ∧
    extract_json_template_params (fun _ => none) "x" = [] ∧
    restore_protected_template_params (fun _ => none) "o" "t" = "t" :=
  C6_parse_failure (fun _ => none) "x" "o" "t" rfl (Or.inl rfl)

/-! ## Theorems: masking allocation (top-level only) -/

theorem maskNodes_snd (doc : List WNode) :
    ∀ i, (maskNodes doc i).2 =
      ((topTemplates doc).enumFrom i).flatMap
        (fun it => tplEntries it.1 it.2.1 it.2.2) := by
  induction doc with
  | nil => intro i; simp [maskNodes, topTemplates]
  | cons nd rest ih =>
    intro i
    cases nd with
    | other s => simpa [maskNodes, topTemplates] using ih i
    | template n ps =>
      simp [maskNodes, topTemplates, List.enumFrom, ih (i + 1)]

theorem maskNodes_no_templates (doc : List WNode) (h : topTemplates doc = []) :
    ∀ i, maskNodes doc i = (serializeValue doc, []) := by
  induction doc with
  | nil => intro i; simp [maskNodes, serializeValue]
  | cons nd rest ih =>
    intro i
    cases nd with
    | other s =>
      have hr : topTemplates rest = [] := by simpa [topTemplates] using h
      simp [maskNodes, serializeValue, serializeNode, ih hr i]
    | template n ps => simp [topTemplates] at h

/-- Claim C5, counterexample to the claim as stated: in the document
`\x7b\x7bA|x=\x7b\x7bB\x7d\x7d\x7d\x7d` the template `B` is a structural node nested inside a
parameter value; the recursive template enumeration sees both `A` and `B`,
but masking allocates placeholders only for `A` and its key `x` — the nested
template's name `B` receives no placeholder and stays as literal text in the
masked output. -/
theorem C5_masking_counterexample :
    (mask_templates_doc [.template "A" [.mk "x" true [.template "B" []]]]).2 =
      [("⟪TPL_0⟫", "A"), ("⟪K_0_0⟫", "x")] ∧
    filterTemplatesNodes [.template "A" [.mk "x" true [.template "B" []]]] =
      [("A", [.mk "x" true [.template "B" []]]), ("B", [])] ∧
    ((mask_templates_doc [.template "A" [.mk "x" true [.template "B" []]]]).2.map
      Prod.snd) = ["A", "x"] ∧
    (mask_templates_doc [.template "A" [.mk "x" true [.template "B" []]]]).1 =
      "\x7b\x7b⟪TPL_0⟫|⟪K_0_0⟫=\x7b\x7bB\x7d\x7d\x7d\x7d" := by
    refine ⟨by rfl, ?_, by rfl, by rfl⟩
    simp [filterTemplatesNodes, filterTemplatesParams]

/-- Claim C5 (amended): masking allocates one placeholder for the name of
every top-level template node and one placeholder per parameter key of those
nodes, in document order — `tplEntries` lists exactly these, and parameter
values appear in the masked text only as literal serialized text.  Templates
nested inside parameter values are not masked (see the counterexample), and a
document without top-level templates passes through unchanged with an empty
mapping. -/
theorem C5_masking_amended (doc : List WNode) :
    (mask_templates_doc doc).2 = topMaskMapping doc ∧
    (topTemplates doc = [] → mask_templates_doc doc = (serializeValue doc, [])) := by
  constructor
  · rw [mask_templates_doc, maskNodes_snd doc 0, topMaskMapping, List.enum]
  · intro h
    exact maskNodes_no_templates doc h 0

/-- Claim C5, witness: the amended theorem applied to a concrete document,
with the pass-through hypothesis discharged. -/
theorem C5_masking_amended_witness :
    ((mask_templates_doc [.template "T" [.mk "k" true [.other "v"]], .other "w"]).2 =
      topMaskMapping [.template "T" [.mk "k" true [.other "v"]], .other "w"]) ∧
    mask_templates_doc [.other "hi"] = (serializeValue [.other "hi"], []) :=
  ⟨(C5_masking_amended [.template "T" [.mk "k" true [.other "v"]], .other "w"]).1,
    (C5_masking_amended [.other "hi"]).2 (by rfl)⟩

/-! ## Theorems: decimal digit strings and placeholder keys -/

theorem toDigitsCore_append10 (f : Nat) :
    ∀ (n : Nat) (l : List Char),
      Nat.toDigitsCore 10 f n l = Nat.toDigitsCore 10 f n [] ++ l := by
  induction f with
  | zero => intro n l; simp [Nat.toDigitsCore]
  | succ f ih =>
    intro n l
    simp only [Nat.toDigitsCore]
    by_cases h : n / 10 = 0
    · simp [h]
    · rw [if_neg h, if_neg h, ih (n / 10) [Nat.digitChar (n % 10)],
        ih (n / 10) (Nat.digitChar (n % 10) :: l)]
      simp

theorem digitChar_isDigit (n : Nat) (h : n < 10) :
    (Nat.digitChar n).isDigit = true := by
  interval_cases n <;> decide

theorem charVal_digitChar (n : Nat) (h : n < 10) :
    charVal (Nat.digitChar n) = n := by
  interval_cases n <;> decide

theorem toDigitsCore_all_digits (f : Nat) :
    ∀ (n : Nat) (l : List Char), (∀ c ∈ l, c.isDigit = true) →
      ∀ c ∈ Nat.toDigitsCore 10 f n l, c.isDigit = true := by
  induction f with
  | zero => intro n l hl; simpa [Nat.toDigitsCore] using hl
  | succ f ih =>
    intro n l hl
    simp only [Nat.toDigitsCore]
    by_cases h : n / 10 = 0
    · rw [if_pos h]
      intro c hc
      rcases List.mem_cons.mp hc with hc | hc
      · exact hc ▸ digitChar_isDigit _ (Nat.mod_lt _ (by decide))
      · exact hl c hc
    · rw [if_neg h]
      refine ih (n / 10) _ ?_
      intro c hc
      rcases List.mem_cons.mp hc with hc | hc
      · exact hc ▸ digitChar_isDigit _ (Nat.mod_lt _ (by decide))
      · exact hl c hc

theorem repr_data_eq (n : Nat) :
    (Nat.repr n).data = Nat.toDigitsCore 10 (n + 1) n [] := rfl

theorem repr_all_digits (n : Nat) : ∀ c ∈ (Nat.repr n).data, c.isDigit = true := by
  rw [repr_data_eq]
  exact toDigitsCore_all_digits (n + 1) n [] (by simp)

theorem digitsVal_append (l : List Char) (c : Char) :
    digitsVal (l ++ [c]) = 10 * digitsVal l + charVal c := by
  simp [digitsVal, List.foldl_append]

theorem toDigitsCore_val (f : Nat) :
    ∀ n : Nat, n < f → digitsVal (Nat.toDigitsCore 10 f n []) = n := by
  induction f with
  | zero => intro n h; omega
  | succ f ih =>
    intro n h
    simp only [Nat.toDigitsCore]
    by_cases h0 : n / 10 = 0
    · rw [if_pos h0]
      have hn : n < 10 := by omega
      have hm : n % 10 = n := Nat.mod_eq_of_lt hn
      rw [hm]
      simp [digitsVal, charVal_digitChar n hn]
    · rw [if_neg h0, toDigitsCore_append10 f (n / 10) [Nat.digitChar (n % 10)],
        digitsVal_append, ih (n / 10) (by omega),
        charVal_digitChar _ (Nat.mod_lt _ (by decide))]
      omega

theorem repr_val (n : Nat) : digitsVal (Nat.repr n).data = n := by
  rw [repr_data_eq]
  exact toDigitsCore_val (n + 1) n (by omega)

theorem repr_inj {a b : Nat} (h : Nat.repr a = Nat.repr b) : a = b := by
  have h2 := congrArg (fun s => digitsVal s.data) h
  simpa [repr_val] using h2

theorem isDigit_ne (c : Char) (h : c.isDigit = true) :
    c ≠ '⟪' ∧ c ≠ '⟫' ∧ c ≠ '_' := by
  refine ⟨fun hc => ?_, fun hc => ?_, fun hc => ?_⟩ <;>
    (subst hc; exact absurd h (by decide))

theorem digits_underscore_split (ds : List Char) :
    ∀ (ds2 t t2 : List Char), (∀ c ∈ ds, c.isDigit = true) →
      (∀ c ∈ ds2, c.isDigit = true) →
      ds ++ '_' :: t = ds2 ++ '_' :: t2 → ds = ds2 ∧ t = t2 := by
  induction ds with
  | nil =>
    intro ds2 t t2 _ hds2 h
    cases ds2 with
    | nil => simpa using h
    | cons d rest =>
      simp only [List.nil_append, List.cons_append, List.cons.injEq] at h
      have hd := hds2 d (by simp)
      rw [← h.1] at hd
      exact absurd hd (by decide)
  | cons d rest ih =>
    intro ds2 t t2 hds hds2 h
    cases ds2 with
    | nil =>
      simp only [List.cons_append, List.nil_append, List.cons.injEq] at h
      have hd := hds d (by simp)
      rw [h.1] at hd
      exact absurd hd (by decide)
    | cons d2 rest2 =>
      simp only [List.cons_append, List.cons.injEq] at h
      obtain ⟨rfl, h2⟩ := h
      obtain ⟨hr, ht⟩ := ih rest2 t t2 (fun c hc => hds c (by simp [hc]))
        (fun c hc => hds2 c (by simp [hc])) h2
      exact ⟨by rw [hr], ht⟩

theorem phTPL_data (i : Nat) :
    (phTPL i).data = '⟪' :: (('T' :: 'P' :: 'L' :: '_' :: (Nat.repr i).data) ++ ['⟫']) := by
  simp [phTPL, String.data_append]

theorem phK_data (i j : Nat) :
    (phK i j).data =
      '⟪' :: (('K' :: '_' :: (Nat.repr i).data ++ '_' :: (Nat.repr j).data) ++ ['⟫']) := by
  simp [phK, String.data_append]

theorem phTPL_shaped (i : Nat) : KeyShaped (phTPL i).data := by
  refine ⟨'T' :: 'P' :: 'L' :: '_' :: (Nat.repr i).data, phTPL_data i, ?_⟩
  intro c hc
  simp only [List.mem_cons] at hc
  rcases hc with rfl | rfl | rfl | rfl | hc
  · exact ⟨by decide, by decide⟩
  · exact ⟨by decide, by decide⟩
  · exact ⟨by decide, by decide⟩
  · exact ⟨by decide, by decide⟩
  · have := isDigit_ne c (repr_all_digits i c hc)
    exact ⟨this.1, this.2.1⟩

theorem phK_shaped (i j : Nat) : KeyShaped (phK i j).data := by
  refine ⟨'K' :: '_' :: (Nat.repr i).data ++ '_' :: (Nat.repr j).data, phK_data i j, ?_⟩
  intro c hc
  simp only [List.mem_cons, List.mem_append] at hc
  rcases hc with (rfl | rfl | hc) | (rfl | hc)
  · exact ⟨by decide, by decide⟩
  · exact ⟨by decide, by decide⟩
  · have := isDigit_ne c (repr_all_digits i c hc)
    exact ⟨this.1, this.2.1⟩
  · exact ⟨by decide, by decide⟩
  · have := isDigit_ne c (repr_all_digits j c hc)
    exact ⟨this.1, this.2.1⟩

theorem phTPL_inj {i j : Nat} (h : phTPL i = phTPL j) : i = j := by
  have h2 := congrArg String.data h
  rw [phTPL_data, phTPL_data] at h2
  simp only [List.cons.injEq, true_and] at h2
  have h3 : (Nat.repr i).data ++ ['⟫'] = (Nat.repr j).data ++ ['⟫'] := by
    simpa using h2
  have h4 : (Nat.repr i).data = (Nat.repr j).data :=
    List.append_cancel_right h3
  exact repr_inj (String.ext h4)

theorem phK_inj {i j i2 j2 : Nat} (h : phK i j = phK i2 j2) : i = i2 ∧ j = j2 := by
  have h2 := congrArg String.data h
  rw [phK_data, phK_data] at h2
  simp only [List.cons.injEq, true_and, List.append_assoc, List.cons_append] at h2
  have h3 : (Nat.repr i).data ++ '_' :: ((Nat.repr j).data ++ ['⟫']) =
      (Nat.repr i2).data ++ '_' :: ((Nat.repr j2).data ++ ['⟫']) := by
    simpa [List.append_assoc] using h2
  obtain ⟨hi, hj⟩ := digits_underscore_split (Nat.repr i).data (Nat.repr i2).data _ _
    (repr_all_digits i) (repr_all_digits i2) h3
  have hj2 : (Nat.repr j).data = (Nat.repr j2).data :=
    List.append_cancel_right hj
  exact ⟨repr_inj (String.ext hi), repr_inj (String.ext hj2)⟩

theorem phTPL_ne_phK (i j k : Nat) : phTPL i ≠ phK j k := by
  intro h
  have h2 := congrArg String.data h
  rw [phTPL_data, phK_data] at h2
  simp at h2

theorem keyShaped_no_overlap {p q : List Char} (hp : KeyShaped p) (hq : KeyShaped q)
    (hne : p ≠ q) : ¬ p <+: q := by
  obtain ⟨cp, rfl, hcp⟩ := hp
  obtain ⟨cq, rfl, hcq⟩ := hq
  intro hpre
  have h2 : cp ++ ['⟫'] <+: cq ++ ['⟫'] := (List.cons_prefix_cons.mp hpre).2
  have hlen := h2.length_le
  simp only [List.length_append, List.length_singleton] at hlen
  rcases Nat.lt_or_ge cp.length cq.length with hlt | hge
  · obtain ⟨r, hr⟩ := h2
    have hL : ((cp ++ ['⟫']) ++ r)[cp.length]? = some '⟫' := by
      rw [List.getElem?_append_left (by simp : cp.length < (cp ++ ['⟫']).length),
        List.getElem?_append_right (le_refl cp.length)]
      simp
    rw [hr] at hL
    rw [List.getElem?_append_left hlt] at hL
    have hmem : '⟫' ∈ cq := List.getElem?_mem hL
    exact (hcq '⟫' hmem).2 rfl
  · have hle : cp.length = cq.length := by omega
    have heq := h2.eq_of_length (by simp [hle])
    exact hne (by rw [show cp = cq from List.append_cancel_right heq])

theorem tplEntries_keys (i : Nat) (n : String) (ps : List WParam) :
    (tplEntries i n ps).map Prod.fst = phTPL i :: (List.range ps.length).map (phK i) := by
  simp only [tplEntries, List.map_cons, List.map_map]
  congr 1
  have h1 : (Prod.fst ∘ fun jp : Nat × WParam => (phK i jp.1, jp.2.pname)) =
      (phK i) ∘ Prod.fst := rfl
  rw [h1, ← List.map_map, List.enum_map_fst]

theorem mem_keysFrom {k : String} (tls : List (String × List WParam)) :
    ∀ i, k ∈ ((tls.enumFrom i).flatMap
        (fun it => tplEntries it.1 it.2.1 it.2.2)).map Prod.fst →
      ∃ a, i ≤ a ∧ (k = phTPL a ∨ ∃ b, k = phK a b) := by
  induction tls with
  | nil => intro i h; simp at h
  | cons t rest ih =>
    intro i h
    simp only [List.enumFrom, List.flatMap_cons, List.map_append, List.mem_append] at h
    rcases h with h | h
    · rw [tplEntries_keys] at h
      rcases List.mem_cons.mp h with rfl | h
      · exact ⟨i, le_refl i, Or.inl rfl⟩
      · obtain ⟨j, _, rfl⟩ := List.mem_map.mp h
        exact ⟨i, le_refl i, Or.inr ⟨j, rfl⟩⟩
    · obtain ⟨a, ha, hk⟩ := ih (i + 1) h
      exact ⟨a, by omega, hk⟩

theorem keysFrom_nodup (tls : List (String × List WParam)) :
    ∀ i, (((tls.enumFrom i).flatMap
      (fun it => tplEntries it.1 it.2.1 it.2.2)).map Prod.fst).Nodup := by
  induction tls with
  | nil => intro i; simp
  | cons t rest ih =>
    intro i
    simp only [List.enumFrom, List.flatMap_cons, List.map_append]
    rw [List.nodup_append]
    refine ⟨?_, ih (i + 1), ?_⟩
    · rw [tplEntries_keys]
      rw [List.nodup_cons]
      constructor
      · intro hmem
        obtain ⟨j, _, hj⟩ := List.mem_map.mp hmem
        exact phTPL_ne_phK i i j hj.symm
      · refine List.Nodup.map ?_ (List.nodup_range _)
        intro a b hab
        exact (phK_inj hab).2
    · intro a ha hb
      obtain ⟨a2, ha2, hk2⟩ := mem_keysFrom rest (i + 1) hb
      rw [tplEntries_keys] at ha
      rcases List.mem_cons.mp ha with rfl | ha
      · rcases hk2 with hk2 | ⟨b2, hk2⟩
        · exact absurd (phTPL_inj hk2) (by omega)
        · exact phTPL_ne_phK i a2 b2 hk2
      · obtain ⟨j, _, rfl⟩ := List.mem_map.mp ha
        rcases hk2 with hk2 | ⟨b2, hk2⟩
        · exact phTPL_ne_phK a2 i j hk2.symm
        · exact absurd (phK_inj hk2).1 (by omega)

/-- Claim C8: within one masking pass the generated placeholders are pairwise
distinct (so no two distinct original strings share a placeholder), every
placeholder has the delimited shape `⟪core⟫` with a delimiter-free core, and
consequently no placeholder is a string prefix of another placeholder. -/
theorem C8_placeholder_uniqueness (doc : List WNode) :
    ((mask_templates_doc doc).2.map Prod.fst).Nodup ∧
    (∀ k ∈ (mask_templates_doc doc).2.map Prod.fst, KeyShaped k.data) ∧
    ((mask_templates_doc doc).2.map Prod.fst).Pairwise
      (fun a b => ¬ a.data <+: b.data ∧ ¬ b.data <+: a.data) := by
  have hm : (mask_templates_doc doc).2 =
      ((topTemplates doc).enumFrom 0).flatMap
        (fun it => tplEntries it.1 it.2.1 it.2.2) :=
    maskNodes_snd doc 0
  have hnodup := hm ▸ keysFrom_nodup (topTemplates doc) 0
  have hshape : ∀ k ∈ (mask_templates_doc doc).2.map Prod.fst, KeyShaped k.data := by
    intro k hk
    rw [hm] at hk
    obtain ⟨a, _, hka | ⟨b, hkb⟩⟩ := mem_keysFrom (topTemplates doc) 0 hk
    · exact hka ▸ phTPL_shaped a
    · exact hkb ▸ phK_shaped a b
  refine ⟨hnodup, hshape, ?_⟩
  have hne : ((mask_templates_doc doc).2.map Prod.fst).Pairwise (fun a b => a ≠ b) :=
    hnodup
  refine List.Pairwise.imp_of_mem ?_ hne
  intro a b ha hb hab
  exact ⟨keyShaped_no_overlap (hshape a ha) (hshape b hb) (fun h => hab (String.ext h)),
    keyShaped_no_overlap (hshape b hb) (hshape a ha)
      (fun h => hab (String.ext h.symm))⟩

/-! ## Theorems: the frame property of protected-value restoration -/

theorem valsLookup_mem {k : Nat × String} {v : String} :
    ∀ {vals : List ((Nat × String) × String)},
      valsLookup k vals = some v → (k, v) ∈ vals := by
  intro vals
  induction vals with
  | nil => intro h; simp [valsLookup] at h
  | cons kv rest ih =>
    intro h
    obtain ⟨k2, v2⟩ := kv
    simp only [valsLookup] at h
    by_cases hk : k2 = k
    · rw [if_pos hk] at h
      obtain rfl : v2 = v := by simpa using h
      subst hk
      exact List.mem_cons_self _ _
    · rw [if_neg hk] at h
      exact List.mem_cons_of_mem _ (ih h)

theorem mem_dinsert {kv : (Nat × String) × String} {k : Nat × String} {v : String} :
    ∀ {l : List ((Nat × String) × String)},
      kv ∈ dinsert k v l → kv = (k, v) ∨ kv ∈ l := by
  intro l
  induction l with
  | nil => intro h; simpa [dinsert] using h
  | cons kv2 rest ih =>
    intro h
    obtain ⟨k2, v2⟩ := kv2
    simp only [dinsert] at h
    by_cases hk : k2 = k
    · rw [if_pos hk] at h
      rcases List.mem_cons.mp h with rfl | h
      · exact Or.inl (by rw [hk])
      · exact Or.inr (List.mem_cons_of_mem _ h)
    · rw [if_neg hk] at h
      rcases List.mem_cons.mp h with rfl | h
      · exact Or.inr (List.mem_cons_self _ _)
      · rcases ih h with h | h
        · exact Or.inl h
        · exact Or.inr (List.mem_cons_of_mem _ h)

theorem collectParams_all_protected (idx : Nat) (ps : List WParam) :
    ∀ acc : List ((Nat × String) × String),
      (∀ kv ∈ acc, PROTECTED_TEMPLATE_PARAMS.contains kv.1.2 = true) →
      ∀ kv ∈ collectParams idx ps acc,
        PROTECTED_TEMPLATE_PARAMS.contains kv.1.2 = true := by
  induction ps with
  | nil => intro acc hacc kv h; exact hacc kv h
  | cons p rest ih =>
    intro acc hacc kv h
    rw [show collectParams idx (p :: rest) acc =
        collectParams idx rest
          (if PROTECTED_TEMPLATE_PARAMS.contains (normalize_param_name p.pname) then
            dinsert (idx, normalize_param_name p.pname) (serializeValue p.value) acc
          else acc) from rfl] at h
    by_cases hp : PROTECTED_TEMPLATE_PARAMS.contains (normalize_param_name p.pname) = true
    · rw [if_pos hp] at h
      refine ih _ ?_ kv h
      intro kv2 h2
      rcases mem_dinsert h2 with rfl | h2
      · exact hp
      · exact hacc kv2 h2
    · rw [if_neg hp] at h
      exact ih acc hacc kv h

theorem collect_all_protected (doc : List WNode) :
    ∀ kv ∈ collectOriginalValues doc,
      PROTECTED_TEMPLATE_PARAMS.contains kv.1.2 = true := by
  unfold collectOriginalValues
  generalize (filterTemplatesNodes doc).enum = tls
  have hgen : ∀ (l : List (Nat × String × List WParam))
      (acc : List ((Nat × String) × String)),
      (∀ kv ∈ acc, PROTECTED_TEMPLATE_PARAMS.contains kv.1.2 = true) →
      ∀ kv ∈ l.foldl (fun acc it => collectParams it.1 it.2.2 acc) acc,
        PROTECTED_TEMPLATE_PARAMS.contains kv.1.2 = true := by
    intro l
    induction l with
    | nil => intro acc hacc kv h; exact hacc kv h
    | cons it rest ih =>
      intro acc hacc kv h
      simp only [List.foldl_cons] at h
      exact ih _ (collectParams_all_protected it.1 it.2.2 acc hacc) kv h
  exact hgen tls [] (by simp)

mutual
theorem frameNodes_refl (ns : List WNode) : FrameNodes ns ns := by
  match ns with
  | [] => exact FrameNodes.nil
  | .other s :: rest => exact FrameNodes.cons (FrameNode.other s) (frameNodes_refl rest)
  | .template n ps :: rest =>
    exact FrameNodes.cons (FrameNode.template (frameParams_refl ps)) (frameNodes_refl rest)
theorem frameParams_refl (ps : List WParam) : FrameParams ps ps := by
  match ps with
  | [] => exact FrameParams.nil
  | .mk nm sk v :: rest =>
    exact FrameParams.cons (FrameParam.keep (frameNodes_refl v)) (frameParams_refl rest)
end

mutual
theorem frame_restoreNodes (vals : List ((Nat × String) × String))
    (hv : ∀ kv ∈ vals, PROTECTED_TEMPLATE_PARAMS.contains kv.1.2 = true)
    (ns : List WNode) (i : Nat) : FrameNodes ns (restoreNodes vals ns i).1 := by
  match ns with
  | [] =>
    simp only [restoreNodes]
    exact FrameNodes.nil
  | .other s :: rest =>
    simp only [restoreNodes]
    exact FrameNodes.cons (FrameNode.other s) (frame_restoreNodes vals hv rest i)
  | .template n ps :: rest =>
    simp only [restoreNodes]
    exact FrameNodes.cons (FrameNode.template (frame_restoreParams vals hv i ps (i + 1)))
      (frame_restoreNodes vals hv rest _)
theorem frame_restoreParams (vals : List ((Nat × String) × String))
    (hv : ∀ kv ∈ vals, PROTECTED_TEMPLATE_PARAMS.contains kv.1.2 = true)
    (t : Nat) (ps : List WParam) (c : Nat) :
    FrameParams ps (restoreParams vals t ps c).1 := by
  match ps with
  | [] =>
    simp only [restoreParams]
    exact FrameParams.nil
  | .mk nm sk v :: rest =>
    rcases hlk : valsLookup (t, normalize_param_name nm) vals with _ | orig
    · simp only [restoreParams, hlk]
      exact FrameParams.cons (FrameParam.keep (frame_restoreNodes vals hv v c))
        (frame_restoreParams vals hv t rest _)
    · have hprot : PROTECTED_TEMPLATE_PARAMS.contains (normalize_param_name nm) = true :=
        hv _ (valsLookup_mem hlk)
      by_cases hne : serializeValue v ≠ orig
      · simp only [restoreParams, hlk, if_pos hne]
        exact FrameParams.cons (FrameParam.prot hprot)
          (frame_restoreParams vals hv t rest _)
      · simp only [restoreParams, hlk, if_neg hne]
        exact FrameParams.cons (FrameParam.keep (frame_restoreNodes vals hv v c))
          (frame_restoreParams vals hv t rest _)
end

theorem collectParams_skip (idx : Nat) (ps : List WParam)
    (h : ∀ p ∈ ps,
      PROTECTED_TEMPLATE_PARAMS.contains (normalize_param_name p.pname) = false) :
    ∀ acc, collectParams idx ps acc = acc := by
  induction ps with
  | nil => intro acc; rfl
  | cons p rest ih =>
    intro acc
    rw [show collectParams idx (p :: rest) acc =
        collectParams idx rest
          (if PROTECTED_TEMPLATE_PARAMS.contains (normalize_param_name p.pname) then
            dinsert (idx, normalize_param_name p.pname) (serializeValue p.value) acc
          else acc) from rfl]
    rw [if_neg (show
      ¬(PROTECTED_TEMPLATE_PARAMS.contains (normalize_param_name p.pname) = true) from by
        rw [h p (List.mem_cons_self p rest)]; simp)]
    exact ih (fun q hq => h q (List.mem_cons_of_mem _ hq)) acc

theorem collect_empty_of_noProtected (doc : List WNode)
    (h : docNoProtected doc = true) : collectOriginalValues doc = [] := by
  unfold collectOriginalValues
  unfold docNoProtected at h
  rw [List.all_eq_true] at h
  have hgen : ∀ (l : List (Nat × String × List WParam)),
      (∀ it ∈ l, ∀ p ∈ it.2.2,
        PROTECTED_TEMPLATE_PARAMS.contains (normalize_param_name p.pname) = false) →
      l.foldl (fun acc it => collectParams it.1 it.2.2 acc) [] = [] := by
    intro l
    induction l with
    | nil => intro _; rfl
    | cons it rest ih =>
      intro hl
      simp only [List.foldl_cons]
      rw [collectParams_skip it.1 it.2.2 (hl it (List.mem_cons_self _ _)) []]
      exact ih (fun it2 h2 => hl it2 (List.mem_cons_of_mem _ h2))
  refine hgen _ ?_
  intro it hit p hp
  have hmem : it.2 ∈ filterTemplatesNodes doc := by
    have h2 := List.mem_map_of_mem Prod.snd hit
    rwa [List.enum_map_snd] at h2
  have h3 := h it.2 hmem
  rw [List.all_eq_true] at h3
  simpa using h3 p hp

/-- Claim C10: restoration differs from the transformed document only in the
values of parameters whose normalized name is in the protected registry —
every template name, parameter key, key visibility, non-protected parameter
value, and all non-template nodes are unchanged (the `FrameNodes` relation);
and if the original contains no protected parameter, the transformed document
is returned unchanged. -/
theorem C10_restore_frame (origDoc transDoc : List WNode) :
    FrameNodes transDoc (restore_protected_doc origDoc transDoc) ∧
    (docNoProtected origDoc = true →
      restore_protected_doc origDoc transDoc = transDoc) := by
  constructor
  · unfold restore_protected_doc
    by_cases h : collectOriginalValues origDoc = []
    · rw [if_pos h]
      exact frameNodes_refl transDoc
    · rw [if_neg h]
      exact frame_restoreNodes _ (collect_all_protected origDoc) transDoc 0
  · intro h
    unfold restore_protected_doc
    rw [collect_empty_of_noProtected origDoc h]
    simp

/-- Claim C10, witness: the frame relation at a concrete pair of documents,
and the no-protected-parameter pass-through at a concrete original. -/
theorem C10_restore_frame_witness :
    FrameNodes [.template "Infobox" [.mk "image" true [.other "V"]]]
      (restore_protected_doc [.template "Infobox" [.mk "image" true [.other "C"]]]
        [.template "Infobox" [.mk "image" true [.other "V"]]]) ∧
    restore_protected_doc [.template "T" [.mk "caption" true [.other "c"]]]
      [.other "t"] = [.other "t"] :=
  ⟨(C10_restore_frame [.template "Infobox" [.mk "image" true [.other "C"]]]
      [.template "Infobox" [.mk "image" true [.other "V"]]]).1,
    (C10_restore_frame [.template "T" [.mk "caption" true [.other "c"]]]
      [.other "t"]).2 (by
        simp [docNoProtected, filterTemplatesNodes, filterTemplatesParams,
          normalize_param_name, pyStripChars, pyLowerChar, stripDiacriticChar,
          PROTECTED_TEMPLATE_PARAMS, WParam.pname, pyIsSpace])⟩

/-! ## Theorems: idempotence of restoration on flat documents -/

theorem valueFlat_filterTemplates (v : List WNode) (h : valueFlat v = true) :
    filterTemplatesNodes v = [] := by
  induction v with
  | nil => simp [filterTemplatesNodes]
  | cons n rest ih =>
    cases n with
    | other s =>
      have hr : valueFlat rest = true := by
        simpa [valueFlat, isOtherNode] using h
      simp [filterTemplatesNodes, ih hr]
    | template nm ps => simp [valueFlat, isOtherNode] at h

theorem paramsFlat_filterParams (ps : List WParam) (h : paramsFlat ps = true) :
    filterTemplatesParams ps = [] := by
  induction ps with
  | nil => simp [filterTemplatesParams]
  | cons p rest ih =>
    obtain ⟨nm, sk, v⟩ := p
    rw [paramsFlat, List.all_cons, Bool.and_eq_true] at h
    have hv : valueFlat v = true := h.1
    have hr : paramsFlat rest = true := h.2
    simp [filterTemplatesParams, valueFlat_filterTemplates v hv, ih hr,
      WParam.value]

theorem restoreNodes_textValue (vals : List ((Nat × String) × String))
    (v : List WNode) (h : valueFlat v = true) :
    ∀ c, restoreNodes vals v c = (v, c) := by
  induction v with
  | nil => intro c; simp [restoreNodes]
  | cons n rest ih =>
    intro c
    cases n with
    | other s =>
      have hr : valueFlat rest = true := by
        simpa [valueFlat, isOtherNode] using h
      simp [restoreNodes, ih hr c]
    | template nm ps => simp [valueFlat, isOtherNode] at h

theorem restoreParams_flat (vals : List ((Nat × String) × String)) (t : Nat)
    (ps : List WParam) (h : paramsFlat ps = true) :
    ∀ c, restoreParams vals t ps c = (ps.map (substParam vals t), c) := by
  induction ps with
  | nil => intro c; simp [restoreParams]
  | cons p rest ih =>
    intro c
    obtain ⟨nm, sk, v⟩ := p
    rw [paramsFlat, List.all_cons, Bool.and_eq_true] at h
    have hv : valueFlat v = true := h.1
    have hr : paramsFlat rest = true := h.2
    rcases hlk : valsLookup (t, normalize_param_name nm) vals with _ | orig
    · simp [restoreParams, hlk, restoreNodes_textValue vals v hv c, ih hr c,
        substParam, WParam.pname, WParam.value, WParam.showkey]
    · by_cases hne : serializeValue v ≠ orig
      · simp [restoreParams, hlk, if_pos hne, valueFlat_filterTemplates v hv,
          ih hr c, substParam, WParam.pname, WParam.value, WParam.showkey]
      · simp [restoreParams, hlk, if_neg hne,
          restoreNodes_textValue vals v hv c, ih hr c, substParam,
          WParam.pname, WParam.value, WParam.showkey]

theorem restoreNodes_flat (vals : List ((Nat × String) × String))
    (ns : List WNode) (h : nodesFlat ns = true) :
    ∀ i, restoreNodes vals ns i =
      (restoreFlat vals ns i, i + (filterTemplatesNodes ns).length) := by
  induction ns with
  | nil => intro i; simp [restoreNodes, restoreFlat, filterTemplatesNodes]
  | cons n rest ih =>
    intro i
    cases n with
    | other s =>
      have hr : nodesFlat rest = true := by simpa [nodesFlat] using h
      simp [restoreNodes, restoreFlat, filterTemplatesNodes, ih hr i]
    | template nm ps =>
      rw [nodesFlat, List.all_cons, Bool.and_eq_true] at h
      have hps : paramsFlat ps = true := h.1
      have hr : nodesFlat rest = true := h.2
      simp only [restoreNodes, restoreFlat, filterTemplatesNodes,
        restoreParams_flat vals i ps hps (i + 1), ih hr (i + 1),
        paramsFlat_filterParams ps hps, List.nil_append, List.length_cons]
      refine Prod.ext rfl ?_
      simp
      omega

theorem restoreFlat_flat (vals : List ((Nat × String) × String))
    (ns : List WNode) (h : nodesFlat ns = true) :
    ∀ i, nodesFlat (restoreFlat vals ns i) = true := by
  induction ns with
  | nil => intro i; simp [restoreFlat, nodesFlat]
  | cons n rest ih =>
    intro i
    cases n with
    | other s =>
      have hr : nodesFlat rest = true := by simpa [nodesFlat] using h
      simpa [restoreFlat, nodesFlat] using ih hr i
    | template nm ps =>
      rw [nodesFlat, List.all_cons, Bool.and_eq_true] at h
      have hps : paramsFlat ps = true := h.1
      have hr : nodesFlat rest = true := h.2
      have hsub : paramsFlat (ps.map (substParam vals i)) = true := by
        rw [paramsFlat, List.all_eq_true]
        intro q hq
        obtain ⟨p, hp, rfl⟩ := List.mem_map.mp hq
        obtain ⟨nm2, sk2, v2⟩ := p
        have hv2 : valueFlat v2 = true := by
          have := (List.all_eq_true.mp hps) _ hp
          simpa [WParam.value] using this
        rcases hlk : valsLookup (i, normalize_param_name nm2) vals with _ | orig
        · simpa [substParam, WParam.pname, WParam.value, hlk] using hv2
        · by_cases hne : serializeValue v2 ≠ orig
          · simp [substParam, WParam.pname, WParam.value, WParam.showkey, hlk,
              if_pos hne, valueFlat, isOtherNode]
          · simpa [substParam, WParam.pname, WParam.value, hlk, if_neg hne]
              using hv2
      have hrest := ih hr (i + 1)
      simp [restoreFlat, nodesFlat] at hrest ⊢
      exact ⟨hsub, hrest⟩

theorem serializeValue_single_other (s : String) :
    serializeValue [WNode.other s] = s := by
  have : serializeValue [WNode.other s] = s ++ "" := by
    simp [serializeValue, serializeNode]
  simpa using this

theorem substParam_idem (vals : List ((Nat × String) × String)) (t : Nat)
    (p : WParam) : substParam vals t (substParam vals t p) = substParam vals t p := by
  obtain ⟨nm, sk, v⟩ := p
  rcases hlk : valsLookup (t, normalize_param_name nm) vals with _ | orig
  · simp [substParam, WParam.pname, hlk]
  · by_cases hne : serializeValue v ≠ orig
    · simp [substParam, WParam.pname, WParam.value, WParam.showkey, hlk,
        if_pos hne, serializeValue_single_other]
    · simp [substParam, WParam.pname, WParam.value, WParam.showkey, hlk,
        if_neg hne]

theorem restoreFlat_idem (vals : List ((Nat × String) × String))
    (ns : List WNode) :
    ∀ i, restoreFlat vals (restoreFlat vals ns i) i = restoreFlat vals ns i := by
  induction ns with
  | nil => intro i; simp [restoreFlat]
  | cons n rest ih =>
    intro i
    cases n with
    | other s => simp [restoreFlat, ih i]
    | template nm ps =>
      simp only [restoreFlat, List.map_map, ih (i + 1)]
      congr 1
      congr 1
      refine List.map_congr_left ?_
      intro p _
      exact substParam_idem vals i p

mutual
theorem restoreNodes_protFlat_idem (vals : List ((Nat × String) × String))
    (hv : ∀ kv ∈ vals, PROTECTED_TEMPLATE_PARAMS.contains kv.1.2 = true)
    (ns : List WNode) :
    protFlatNodes ns = true → ∀ (i : Nat),
    (restoreNodes vals ns i).2 = i + (filterTemplatesNodes ns).length ∧
    (filterTemplatesNodes (restoreNodes vals ns i).1).length =
      (filterTemplatesNodes ns).length ∧
    protFlatNodes (restoreNodes vals ns i).1 = true ∧
    restoreNodes vals (restoreNodes vals ns i).1 i = restoreNodes vals ns i := by
  match ns with
  | [] =>
    intro _ i
    simp [restoreNodes, filterTemplatesNodes, protFlatNodes]
  | .other s :: rest =>
    intro h i
    rw [protFlatNodes, Bool.and_eq_true] at h
    obtain ⟨ih1, ih2, ih3, ih4⟩ :=
      restoreNodes_protFlat_idem vals hv rest h.2 i
    simp only [restoreNodes, filterTemplatesNodes, protFlatNodes, protFlatNode,
      Bool.true_and]
    refine ⟨ih1, ih2, ih3, ?_⟩
    rw [ih4]
  | .template n ps :: rest =>
    intro h i
    rw [protFlatNodes, Bool.and_eq_true] at h
    have hps : protFlatParams ps = true := by
      simpa [protFlatNode] using h.1
    obtain ⟨ihp1, ihp2, ihp3, ihp4⟩ :=
      restoreParams_protFlat_idem vals hv i ps hps (i + 1)
    obtain ⟨ihr1, ihr2, ihr3, ihr4⟩ :=
      restoreNodes_protFlat_idem vals hv rest h.2
        (restoreParams vals i ps (i + 1)).2
    simp only [restoreNodes, filterTemplatesNodes, protFlatNodes, protFlatNode]
    refine ⟨?_, ?_, ?_, ?_⟩
    · rw [ihr1, ihp1]
      simp only [List.length_cons, List.length_append]
      omega
    · simp only [List.length_cons, List.length_append, ihp2, ihr2]
    · rw [Bool.and_eq_true]
      exact ⟨ihp3, ihr3⟩
    · rw [ihp4, ihr4]
theorem restoreParams_protFlat_idem (vals : List ((Nat × String) × String))
    (hv : ∀ kv ∈ vals, PROTECTED_TEMPLATE_PARAMS.contains kv.1.2 = true)
    (t : Nat) (ps : List WParam) :
    protFlatParams ps = true → ∀ (c : Nat),
    (restoreParams vals t ps c).2 = c + (filterTemplatesParams ps).length ∧
    (filterTemplatesParams (restoreParams vals t ps c).1).length =
      (filterTemplatesParams ps).length ∧
    protFlatParams (restoreParams vals t ps c).1 = true ∧
    restoreParams vals t (restoreParams vals t ps c).1 c =
      restoreParams vals t ps c := by
  match ps with
  | [] =>
    intro _ c
    simp [restoreParams, filterTemplatesParams, protFlatParams]
  | .mk nm sk v :: rest =>
    intro h c
    rw [protFlatParams, Bool.and_eq_true, Bool.and_eq_true] at h
    obtain ⟨⟨hpv, hfv⟩, hrest⟩ := h
    rcases hlk : valsLookup (t, normalize_param_name nm) vals with _ | orig
    · obtain ⟨ihv1, ihv2, ihv3, ihv4⟩ :=
        restoreNodes_protFlat_idem vals hv v hfv c
      obtain ⟨ihr1, ihr2, ihr3, ihr4⟩ :=
        restoreParams_protFlat_idem vals hv t rest hrest (restoreNodes vals v c).2
      simp only [restoreParams, hlk, filterTemplatesParams]
      refine ⟨?_, ?_, ?_, ?_⟩
      · rw [ihr1, ihv1]
        simp only [List.length_append]
        omega
      · simp only [List.length_append, ihv2, ihr2]
      · rw [protFlatParams, Bool.and_eq_true, Bool.and_eq_true]
        refine ⟨⟨?_, ihv3⟩, ihr3⟩
        by_cases hc2 :
            PROTECTED_TEMPLATE_PARAMS.contains (normalize_param_name nm) = true
        · have hflat : valueFlat v = true := by
            have h2 := hpv
            rw [hc2] at h2
            simpa using h2
          rw [hc2, restoreNodes_textValue vals v hflat c]
          simpa using hflat
        · rw [Bool.eq_false_iff.mpr hc2]
          simp
      · rw [ihv4, ihr4]
    · have hprot :
          PROTECTED_TEMPLATE_PARAMS.contains (normalize_param_name nm) = true :=
        hv _ (valsLookup_mem hlk)
      have hflat : valueFlat v = true := by
        have h2 := hpv
        rw [hprot] at h2
        simpa using h2
      have hfil : filterTemplatesNodes v = [] := valueFlat_filterTemplates v hflat
      have hoflat : valueFlat [WNode.other orig] = true := by
        simp [valueFlat, isOtherNode]
      by_cases hne : serializeValue v ≠ orig
      · obtain ⟨ihr1, ihr2, ihr3, ihr4⟩ :=
          restoreParams_protFlat_idem vals hv t rest hrest c
        simp only [restoreParams, hlk, if_pos hne, hfil, List.length_nil,
          Nat.add_zero, filterTemplatesParams]
        refine ⟨?_, ?_, ?_, ?_⟩
        · rw [ihr1]
          simp only [List.length_append, hfil, List.length_nil]
          omega
        · simp only [filterTemplatesNodes, List.length_append, ihr2, hfil,
            List.length_nil]
        · rw [protFlatParams, Bool.and_eq_true, Bool.and_eq_true]
          refine ⟨⟨?_, ?_⟩, ihr3⟩
          · rw [hprot]
            simpa using hoflat
          · simp [protFlatNodes, protFlatNode]
        · rw [serializeValue_single_other]
          rw [if_neg (by simp)]
          rw [restoreNodes_textValue vals [WNode.other orig] hoflat c, ihr4]
      · obtain ⟨ihr1, ihr2, ihr3, ihr4⟩ :=
          restoreParams_protFlat_idem vals hv t rest hrest c
        simp only [restoreParams, hlk, if_neg hne,
          restoreNodes_textValue vals v hflat, filterTemplatesParams]
        refine ⟨?_, ?_, ?_, ?_⟩
        · rw [ihr1]
          simp only [List.length_append, hfil, List.length_nil]
          omega
        · simp only [List.length_append, ihr2]
        · rw [protFlatParams, Bool.and_eq_true, Bool.and_eq_true]
          exact ⟨⟨hpv, hfv⟩, ihr3⟩
        · rw [ihr4]
end

theorem charsClean_append (a b : List Char) :
    charsClean (a ++ b) = (charsClean a && charsClean b) := by
  simp [charsClean, List.all_append]

theorem charsClean_data_append (a b : String) :
    charsClean (a ++ b).data = (charsClean a.data && charsClean b.data) := by
  rw [String.data_append, charsClean_append]

mutual
theorem serializeNode_clean (n : WNode) (h : nodeClean n = true) :
    charsClean (serializeNode n).data = true := by
  match n with
  | .other s =>
    simpa [serializeNode, nodeClean] using h
  | .template nm ps =>
    rw [nodeClean, Bool.and_eq_true] at h
    simp only [serializeNode, charsClean_data_append, Bool.and_eq_true]
    exact ⟨⟨⟨by decide, h.1⟩, serializeParams_clean ps h.2⟩, by decide⟩
theorem serializeParams_clean (ps : List WParam) (h : paramsCleanB ps = true) :
    charsClean (serializeParams ps).data = true := by
  match ps with
  | [] => simp [serializeParams, charsClean]
  | .mk nm sk v :: rest =>
    rw [paramsCleanB, Bool.and_eq_true] at h
    simp only [serializeParams, charsClean_data_append, Bool.and_eq_true]
    refine ⟨⟨by decide, serializeParam_clean (.mk nm sk v) ?_⟩,
      serializeParams_clean rest h.2⟩
    simpa [WParam.pname, WParam.value] using h.1
theorem serializeParam_clean (p : WParam)
    (h : (charsClean p.pname.data && nodesClean p.value) = true) :
    charsClean (serializeParam p).data = true := by
  match p with
  | .mk nm sk v =>
    rw [Bool.and_eq_true] at h
    simp only [WParam.pname, WParam.value] at h
    rw [serializeParam]
    by_cases hsk : sk = true
    · subst hsk
      have h2 := serializeValue_clean v h.2
      have h3 : charsClean "=".data = true := by decide
      simp only [charsClean_data_append, Bool.and_eq_true]
      have h4 : ('=' :: (serializeValue v).data) = "=".data ++ (serializeValue v).data :=
        rfl
      simp [charsClean_data_append, h.1, h2, h3, h4, charsClean_append]
    · rw [if_neg hsk]
      simpa [charsClean_data_append] using serializeValue_clean v h.2
theorem serializeValue_clean (v : List WNode) (h : nodesClean v = true) :
    charsClean (serializeValue v).data = true := by
  match v with
  | [] => simp [serializeValue, charsClean]
  | n :: rest =>
    rw [nodesClean, Bool.and_eq_true] at h
    simp only [serializeValue, charsClean_data_append, Bool.and_eq_true]
    exact ⟨serializeNode_clean n h.1, serializeValue_clean rest h.2⟩
end

theorem ctoksJoin_cons (t : CTok) (ts : List CTok) :
    ctoksJoin (t :: ts) = ctokChars t ++ ctoksJoin ts := by
  simp [ctoksJoin]

theorem ctoksJoin_append (a b : List CTok) :
    ctoksJoin (a ++ b) = ctoksJoin a ++ ctoksJoin b := by
  simp [ctoksJoin]

theorem paramsToks_join (i : Nat) (ps : List WParam) :
    ∀ j, ctoksJoin (paramsToks i j ps) =
      (if ps.isEmpty then ([] : List Char)
       else (if j = 0 then ['|'] else [' ', '|', ' ']) ++
         (joinSepBar ((ps.enumFrom j).map
           (fun jp => phK i jp.1 ++ "=" ++ serializeValue jp.2.value))).data) := by
  induction ps with
  | nil => intro j; simp [paramsToks, ctoksJoin]
  | cons p rest ih =>
    intro j
    rw [paramsToks, ctoksJoin_cons, ctoksJoin_cons, ctoksJoin_cons, ih (j + 1)]
    cases rest with
    | nil =>
      simp [ctokChars, List.enumFrom, joinSepBar, String.data_append,
        List.append_assoc]
    | cons q rest2 =>
      have hj1 : ¬(j + 1 = 0) := by omega
      simp only [List.isEmpty_cons, if_neg hj1, ctokChars, List.enumFrom,
        List.map_cons, joinSepBar, String.data_append, Bool.false_eq_true,
        if_false]
      simp [String.data_append, List.append_assoc]

theorem tplToks_join (i : Nat) (ps : List WParam) :
    ctoksJoin (tplToks i ps) = (maskedTplText i ps).data := by
  rw [tplToks, ctoksJoin_cons, ctoksJoin_cons, ctoksJoin_append,
    paramsToks_join i ps 0, maskedTplText]
  by_cases hps : ps.isEmpty
  · simp [hps, ctokChars, ctoksJoin, String.data_append, List.enum]
  · simp only [hps, Bool.false_eq_true, if_false, if_pos rfl, ctokChars,
      ctoksJoin, List.enum]
    simp [String.data_append, List.append_assoc, ctokChars]

theorem maskToks_join (doc : List WNode) :
    ∀ i, ctoksJoin (maskToks doc i) = (maskNodes doc i).1.data := by
  induction doc with
  | nil => intro i; simp [maskToks, maskNodes, ctoksJoin]
  | cons n rest ih =>
    intro i
    cases n with
    | other s =>
      rw [maskToks, ctoksJoin_cons]
      simp [maskNodes, ctokChars, String.data_append, ih i]
    | template nm ps =>
      rw [maskToks, ctoksJoin_append, tplToks_join, ih (i + 1)]
      simp [maskNodes, String.data_append]

theorem mem_insertSorted {y x : String} :
    ∀ {l : List String}, y ∈ insertSorted x l ↔ y = x ∨ y ∈ l := by
  intro l
  induction l with
  | nil => simp [insertSorted]
  | cons z zs ih =>
    by_cases h : keyLE x z = true
    · simp [insertSorted, h]
    · simp only [insertSorted, if_neg h, List.mem_cons, ih]
      tauto

theorem mem_sortKeys {y : String} :
    ∀ {l : List String}, y ∈ sortKeys l ↔ y ∈ l := by
  intro l
  induction l with
  | nil => simp [sortKeys]
  | cons z zs ih =>
    rw [show sortKeys (z :: zs) = insertSorted z (sortKeys zs) from rfl]
    rw [mem_insertSorted]
    simp [ih]

theorem alistLookup_of_mem_of_nodup {m : List (String × String)} {k : String}
    {v : String} (hnd : (m.map Prod.fst).Nodup) (h : (k, v) ∈ m) :
    alistLookup k m = some v := by
  induction m with
  | nil => simp at h
  | cons kv rest ih =>
    obtain ⟨k2, v2⟩ := kv
    simp only [List.map_cons, List.nodup_cons] at hnd
    rcases List.mem_cons.mp h with heq | h
    · obtain ⟨rfl, rfl⟩ := Prod.mk.injEq .. ▸ heq
      simp [alistLookup]
    · have hk2 : ¬(k2 = k) := by
        intro hk
        subst hk
        exact hnd.1 (List.mem_map_of_mem Prod.fst h)
      simp only [alistLookup, if_neg hk2]
      exact ih hnd.2 h

theorem alistLookup_mem_of_mem_keys {m : List (String × String)} {k : String}
    (h : k ∈ m.map Prod.fst) :
    ∃ v, alistLookup k m = some v ∧ (k, v) ∈ m := by
  induction m with
  | nil => simp at h
  | cons kv rest ih =>
    obtain ⟨k2, v2⟩ := kv
    by_cases hk : k2 = k
    · subst hk
      exact ⟨v2, by simp [alistLookup], List.mem_cons_self _ _⟩
    · have h2 : k ∈ rest.map Prod.fst := by
        rcases List.mem_cons.mp h with heq | h2
        · exact absurd heq.symm hk
        · exact h2
      obtain ⟨v, hv, hm⟩ := ih h2
      exact ⟨v, by simp [alistLookup, hk, hv], List.mem_cons_of_mem _ hm⟩

theorem restore_fold_data (m : List (String × String)) (keys : List String) :
    ∀ acc : String,
      (keys.foldl (fun a ph => pyReplace a ph ((alistLookup ph m).getD "")) acc).data =
      keys.foldl (fun a ph => creplace a ph.data ((alistLookup ph m).getD "").data)
        acc.data := by
  induction keys with
  | nil => intro acc; rfl
  | cons k ks ih =>
    intro acc
    simp only [List.foldl_cons]
    rw [ih (pyReplace acc k ((alistLookup k m).getD ""))]
    rfl

theorem creplaceGo_plain (prest rep : List Char) :
    ∀ (t : List Char), charsClean t = true → ∀ r,
      creplaceGo '⟪' prest rep (t ++ r) = t ++ creplaceGo '⟪' prest rep r := by
  intro t
  induction t with
  | nil => intro _ r; simp
  | cons c cs ih =>
    intro ht r
    rw [charsClean, List.all_cons, Bool.and_eq_true] at ht
    have hc : ¬(c = '⟪') := by simpa using ht.1
    have hpre : ¬(('⟪' :: prest).isPrefixOf (c :: (cs ++ r)) = true) := by
      rw [List.isPrefixOf_iff_prefix, List.cons_prefix_cons]
      rintro ⟨heq, _⟩
      exact hc heq.symm
    have hstep : creplaceGo '⟪' prest rep (c :: (cs ++ r)) =
        c :: creplaceGo '⟪' prest rep (cs ++ r) := by
      simp only [creplaceGo]
      rw [if_neg hpre]
    rw [List.cons_append, hstep, ih ht.2 r]
    simp

theorem creplaceGo_hit (prest rep r : List Char) :
    creplaceGo '⟪' prest rep (('⟪' :: prest) ++ r) =
      rep ++ creplaceGo '⟪' prest rep r := by
  have hpre : ('⟪' :: prest).isPrefixOf ('⟪' :: (prest ++ r)) = true := by
    rw [List.isPrefixOf_iff_prefix]
    exact List.prefix_append _ _
  rw [List.cons_append]
  simp only [creplaceGo]
  rw [if_pos hpre, List.drop_left]

theorem creplaceGo_other_key (prest rep : List Char)
    (hpshape : KeyShaped ('⟪' :: prest)) (k : List Char) (hk : KeyShaped k)
    (hne : k ≠ '⟪' :: prest) (r : List Char) :
    creplaceGo '⟪' prest rep (k ++ r) = k ++ creplaceGo '⟪' prest rep r := by
  have hnp : ¬(('⟪' :: prest) <+: (k ++ r)) := by
    intro hp
    rcases List.prefix_or_prefix_of_prefix hp (List.prefix_append k r) with h | h
    · exact keyShaped_no_overlap hpshape hk (fun he => hne he.symm) h
    · exact keyShaped_no_overlap hk hpshape hne h
  obtain ⟨ck, hkeq, hck⟩ := hk
  subst hkeq
  have hclean : charsClean (ck ++ ['⟫']) = true := by
    rw [charsClean, List.all_eq_true]
    intro c hc
    rcases List.mem_append.mp hc with hc | hc
    · simpa using (hck c hc).1
    · simp only [List.mem_singleton] at hc
      subst hc
      decide
  have hpre : ¬(('⟪' :: prest).isPrefixOf ('⟪' :: ((ck ++ ['⟫']) ++ r)) = true) := by
    rw [List.isPrefixOf_iff_prefix]
    intro hp
    exact hnp (by simpa [List.cons_append] using hp)
  have hstep : creplaceGo '⟪' prest rep ('⟪' :: ((ck ++ ['⟫']) ++ r)) =
      '⟪' :: creplaceGo '⟪' prest rep ((ck ++ ['⟫']) ++ r) := by
    simp only [creplaceGo]
    rw [if_neg hpre]
  show creplaceGo '⟪' prest rep ('⟪' :: ((ck ++ ['⟫']) ++ r)) =
    ('⟪' :: (ck ++ ['⟫'])) ++ creplaceGo '⟪' prest rep r
  rw [hstep, creplaceGo_plain prest rep (ck ++ ['⟫']) hclean r]
  simp [List.cons_append, List.append_assoc]

theorem creplace_tokens (core : List Char)
    (hpshape : KeyShaped ('⟪' :: (core ++ ['⟫']))) (rep : List Char) :
    ∀ ts : List CTok,
      (∀ t ∈ ts, (∃ s, t = .plain s ∧ charsClean s = true) ∨
        (∃ k, t = .ph k ∧ KeyShaped k)) →
      creplace (ctoksJoin ts) ('⟪' :: (core ++ ['⟫'])) rep =
        ctoksJoin (ts.map (replTok ('⟪' :: (core ++ ['⟫'])) rep)) := by
  intro ts
  induction ts with
  | nil =>
    intro _
    show creplaceGo '⟪' (core ++ ['⟫']) rep (ctoksJoin []) = ctoksJoin []
    rw [show ctoksJoin [] = [] from rfl]
    simp [creplaceGo]
  | cons t ts ih =>
    intro hts
    have ihh := ih (fun t2 h2 => hts t2 (List.mem_cons_of_mem _ h2))
    rw [ctoksJoin_cons, List.map_cons, ctoksJoin_cons]
    show creplaceGo '⟪' (core ++ ['⟫']) rep (ctokChars t ++ ctoksJoin ts) = _
    rcases hts t (List.mem_cons_self _ _) with ⟨s, rfl, hs⟩ | ⟨k, rfl, hk⟩
    · rw [show ctokChars (CTok.plain s) = s from rfl,
        creplaceGo_plain (core ++ ['⟫']) rep s hs (ctoksJoin ts)]
      rw [show (replTok ('⟪' :: (core ++ ['⟫'])) rep (CTok.plain s)) = CTok.plain s
        from rfl]
      rw [show creplace (ctoksJoin ts) ('⟪' :: (core ++ ['⟫'])) rep =
        creplaceGo '⟪' (core ++ ['⟫']) rep (ctoksJoin ts) from rfl] at ihh
      rw [ihh]
      rfl
    · by_cases hkp : k = '⟪' :: (core ++ ['⟫'])
      · subst hkp
        rw [show ctokChars (CTok.ph ('⟪' :: (core ++ ['⟫']))) =
          ('⟪' :: (core ++ ['⟫'])) from rfl]
        rw [show ('⟪' :: (core ++ ['⟫'])) ++ ctoksJoin ts =
          ('⟪' :: (core ++ ['⟫'])) ++ ctoksJoin ts from rfl]
        rw [creplaceGo_hit (core ++ ['⟫']) rep (ctoksJoin ts)]
        rw [show (replTok ('⟪' :: (core ++ ['⟫'])) rep
          (CTok.ph ('⟪' :: (core ++ ['⟫'])))) = CTok.plain rep from by
            simp [replTok]]
        rw [show creplace (ctoksJoin ts) ('⟪' :: (core ++ ['⟫'])) rep =
          creplaceGo '⟪' (core ++ ['⟫']) rep (ctoksJoin ts) from rfl] at ihh
        rw [show ctokChars (CTok.plain rep) = rep from rfl, ihh]
      · rw [show ctokChars (CTok.ph k) = k from rfl,
          creplaceGo_other_key (core ++ ['⟫']) rep hpshape k hk hkp (ctoksJoin ts)]
        rw [show (replTok ('⟪' :: (core ++ ['⟫'])) rep (CTok.ph k)) = CTok.ph k
          from by simp [replTok, hkp]]
        rw [show creplace (ctoksJoin ts) ('⟪' :: (core ++ ['⟫'])) rep =
          creplaceGo '⟪' (core ++ ['⟫']) rep (ctoksJoin ts) from rfl] at ihh
        rw [show ctokChars (CTok.ph k) = k from rfl, ihh]

theorem fold_replace (m : List (String × String))
    (hshaped : ∀ key ∈ m.map Prod.fst, KeyShaped key.data)
    (hnd : (m.map Prod.fst).Nodup)
    (hvclean : ∀ kv ∈ m, charsClean kv.2.data = true) :
    ∀ (L : List String), (∀ key ∈ L, key ∈ m.map Prod.fst) →
    ∀ ts : List CTok,
      (∀ t ∈ ts, (∃ s, t = .plain s ∧ charsClean s = true) ∨
        (∃ key, t = .ph key.data ∧ key ∈ m.map Prod.fst ∧ key ∈ L)) →
      L.foldl (fun a key => creplace a key.data ((alistLookup key m).getD "").data)
        (ctoksJoin ts) =
      ctoksJoin (ts.map (resolveTok m)) := by
  intro L
  induction L with
  | nil =>
    intro _ ts hts
    simp only [List.foldl_nil]
    have h2 : ∀ t ∈ ts, resolveTok m t = t := by
      intro t ht
      rcases hts t ht with ⟨s, rfl, _⟩ | ⟨key, _, _, hkey⟩
      · rfl
      · simp at hkey
    rw [List.map_congr_left h2]
    simp
  | cons key L2 ih =>
    intro hL ts hts
    simp only [List.foldl_cons]
    show List.foldl (fun a k => creplace a k.data ((alistLookup k m).getD "").data)
      (creplace (ctoksJoin ts) key.data ((alistLookup key m).getD "").data) L2 =
      ctoksJoin (ts.map (resolveTok m))
    obtain ⟨v, hlk, hmemv⟩ :=
      alistLookup_mem_of_mem_keys (hL key (List.mem_cons_self _ _))
    have hkey_shape := hshaped key (hL key (List.mem_cons_self _ _))
    obtain ⟨core, hkeq, hkcore⟩ := hkey_shape
    have hkeq2 : key.data = '⟪' :: (core ++ ['⟫']) := by rw [hkeq, List.cons_append]
    have hts1 : ∀ t ∈ ts, (∃ s, t = .plain s ∧ charsClean s = true) ∨
        (∃ k, t = .ph k ∧ KeyShaped k) := by
      intro t ht
      rcases hts t ht with h | ⟨key2, rfl, hk2, _⟩
      · exact Or.inl h
      · exact Or.inr ⟨key2.data, rfl, hshaped key2 hk2⟩
    have hpkshape : KeyShaped ('⟪' :: (core ++ ['⟫'])) := ⟨core, rfl, hkcore⟩
    rw [hkeq2, creplace_tokens core hpkshape ((alistLookup key m).getD "").data ts hts1]
    have hts2 : ∀ t ∈ ts.map (replTok ('⟪' :: (core ++ ['⟫']))
        ((alistLookup key m).getD "").data),
        (∃ s, t = .plain s ∧ charsClean s = true) ∨
        (∃ key2, t = .ph key2.data ∧ key2 ∈ m.map Prod.fst ∧ key2 ∈ L2) := by
      intro t2 ht2
      obtain ⟨t, ht, rfl⟩ := List.mem_map.mp ht2
      rcases hts t ht with ⟨s, rfl, hs⟩ | ⟨key2, rfl, hk2, hkL⟩
      · exact Or.inl ⟨s, rfl, hs⟩
      · by_cases hkk : key2 = key
        · subst hkk
          refine Or.inl ⟨((alistLookup key2 m).getD "").data, ?_, ?_⟩
          · rw [show replTok ('⟪' :: (core ++ ['⟫']))
              ((alistLookup key2 m).getD "").data (CTok.ph key2.data) =
              CTok.plain ((alistLookup key2 m).getD "").data from by
                simp [replTok, hkeq2]]
          · rw [hlk]
            exact hvclean (key2, v) hmemv
        · refine Or.inr ⟨key2, ?_, hk2, ?_⟩
          · rw [show replTok ('⟪' :: (core ++ ['⟫']))
              ((alistLookup key m).getD "").data (CTok.ph key2.data) =
              CTok.ph key2.data from by
                simp only [replTok]
                rw [if_neg (fun hd => hkk (String.ext (hkeq2 ▸ hd)))]]
          · rcases List.mem_cons.mp hkL with h | h
            · exact absurd h hkk
            · exact h
    rw [ih (fun k2 h2 => hL k2 (List.mem_cons_of_mem _ h2)) _ hts2]
    congr 1
    rw [List.map_map]
    refine List.map_congr_left ?_
    intro t ht
    rcases hts t ht with ⟨s, rfl, _⟩ | ⟨key2, rfl, _, _⟩
    · rfl
    · by_cases hkk : key2 = key
      · subst hkk
        show resolveTok m (replTok ('⟪' :: (core ++ ['⟫']))
          ((alistLookup key2 m).getD "").data (CTok.ph key2.data)) =
          resolveTok m (CTok.ph key2.data)
        rw [show replTok ('⟪' :: (core ++ ['⟫']))
            ((alistLookup key2 m).getD "").data (CTok.ph key2.data) =
            CTok.plain ((alistLookup key2 m).getD "").data from by
          simp [replTok, hkeq2]]
        rfl
      · show resolveTok m (replTok ('⟪' :: (core ++ ['⟫']))
          ((alistLookup key m).getD "").data (CTok.ph key2.data)) =
          resolveTok m (CTok.ph key2.data)
        rw [show replTok ('⟪' :: (core ++ ['⟫']))
            ((alistLookup key m).getD "").data (CTok.ph key2.data) =
            CTok.ph key2.data from by
          simp only [replTok]
          rw [if_neg (fun hd => hkk (String.ext (hkeq2 ▸ hd)))]]

/-! ## Theorems: the mask/unmask round trip (C1) -/

theorem join_data (l : List String) :
    (String.join l).data = (l.map String.data).flatten := by
  rw [String.join_eq]

theorem normSerialize_cons (n : WNode) (rest : List WNode) :
    (normSerialize (n :: rest)).data =
      (normSerializeNode n).data ++ (normSerialize rest).data := by
  simp [normSerialize, join_data]

theorem getElem?_mem_enumFrom {α : Type} :
    ∀ (l : List α) (k j : Nat) (x : α), l[j]? = some x → (k + j, x) ∈ l.enumFrom k := by
  intro l
  induction l with
  | nil => intro k j x h; simp at h
  | cons a rest ih =>
    intro k j x h
    cases j with
    | zero =>
      rw [List.getElem?_cons_zero] at h
      obtain rfl := Option.some.inj h
      simp [List.enumFrom]
    | succ j2 =>
      rw [List.getElem?_cons_succ] at h
      have h2 := ih (k + 1) j2 x h
      rw [List.enumFrom]
      refine List.mem_cons_of_mem _ ?_
      rwa [show k + (j2 + 1) = k + 1 + j2 from by omega]

theorem paramsCleanB_pname :
    ∀ {ps : List WParam}, paramsCleanB ps = true →
      ∀ p ∈ ps, charsClean p.pname.data = true := by
  intro ps
  induction ps with
  | nil => intro _ p hp; simp at hp
  | cons q rest ih =>
    obtain ⟨nm, sk, v⟩ := q
    intro h p hp
    rw [paramsCleanB, Bool.and_eq_true, Bool.and_eq_true] at h
    rcases List.mem_cons.mp hp with rfl | hp
    · simpa [WParam.pname] using h.1.1
    · exact ih h.2 p hp

theorem tplEntries_val {i : Nat} {n : String} {ps : List WParam} {kv : String × String}
    (h : kv ∈ tplEntries i n ps) : kv.2 = n ∨ ∃ p ∈ ps, kv.2 = p.pname := by
  rw [tplEntries] at h
  rcases List.mem_cons.mp h with rfl | h
  · exact Or.inl rfl
  · obtain ⟨jp, hjp, rfl⟩ := List.mem_map.mp h
    refine Or.inr ⟨jp.2, ?_, rfl⟩
    have h2 := List.mem_map_of_mem Prod.snd hjp
    rwa [List.enum_map_snd] at h2

theorem maskMapping_vclean {doc : List WNode} (h : nodesClean doc = true) :
    ∀ i, ∀ kv ∈ (maskNodes doc i).2, charsClean kv.2.data = true := by
  induction doc with
  | nil => intro i kv hkv; simp [maskNodes] at hkv
  | cons nd rest ih =>
    intro i kv hkv
    rw [nodesClean, Bool.and_eq_true] at h
    cases nd with
    | other s =>
      exact ih h.2 i kv hkv
    | template nm ps =>
      have hnode := h.1
      rw [nodeClean, Bool.and_eq_true] at hnode
      rw [show (maskNodes (WNode.template nm ps :: rest) i).2 =
        tplEntries i nm ps ++ (maskNodes rest (i + 1)).2 from rfl] at hkv
      rcases List.mem_append.mp hkv with hkv | hkv
      · rcases tplEntries_val hkv with heq | ⟨p, hp, heq⟩
        · rw [heq]; exact hnode.1
        · rw [heq]; exact paramsCleanB_pname hnode.2 p hp
      · exact ih h.2 (i + 1) kv hkv

theorem paramsToks_wf (i : Nat) :
    ∀ (ps : List WParam) (j : Nat), paramsCleanB ps = true →
      ∀ t ∈ paramsToks i j ps,
        (∃ s, t = CTok.plain s ∧ charsClean s = true) ∨
        ∃ j2, j ≤ j2 ∧ j2 < j + ps.length ∧ t = CTok.ph (phK i j2).data := by
  intro ps
  induction ps with
  | nil => intro j _ t ht; simp [paramsToks] at ht
  | cons p rest ih =>
    intro j h t ht
    obtain ⟨nm, sk, v⟩ := p
    rw [paramsCleanB, Bool.and_eq_true, Bool.and_eq_true] at h
    rw [paramsToks] at ht
    rcases List.mem_cons.mp ht with rfl | ht
    · refine Or.inl ⟨_, rfl, ?_⟩
      split <;> decide
    rcases List.mem_cons.mp ht with rfl | ht
    · exact Or.inr ⟨j, le_refl j, by simp, rfl⟩
    rcases List.mem_cons.mp ht with rfl | ht
    · refine Or.inl ⟨_, rfl, ?_⟩
      have h2 := serializeValue_clean v h.1.2
      have h3 : ('=' :: (serializeValue v).data) = ['='] ++ (serializeValue v).data := rfl
      rw [show (WParam.mk nm sk v).value = v from rfl, h3, charsClean_append, h2]
      decide
    · rcases ih (j + 1) h.2 t ht with hc | ⟨j2, hj1, hj2, heq⟩
      · exact Or.inl hc
      · refine Or.inr ⟨j2, by omega, ?_, heq⟩
        rw [List.length_cons]
        omega

theorem maskToks_wf :
    ∀ (doc : List WNode) (i : Nat), nodesClean doc = true →
      ∀ t ∈ maskToks doc i,
        (∃ s, t = CTok.plain s ∧ charsClean s = true) ∨
        ∃ key, t = CTok.ph key.data ∧ key ∈ (maskNodes doc i).2.map Prod.fst := by
  intro doc
  induction doc with
  | nil => intro i _ t ht; simp [maskToks] at ht
  | cons nd rest ih =>
    intro i h t ht
    rw [nodesClean, Bool.and_eq_true] at h
    cases nd with
    | other s =>
      rw [maskToks] at ht
      rcases List.mem_cons.mp ht with rfl | ht
      · exact Or.inl ⟨s.data, rfl, by simpa [nodeClean] using h.1⟩
      · rcases ih i h.2 t ht with hc | ⟨key, heq, hk⟩
        · exact Or.inl hc
        · exact Or.inr ⟨key, heq, hk⟩
    | template nm ps =>
      have hnode := h.1
      rw [nodeClean, Bool.and_eq_true] at hnode
      have hmap : (maskNodes (WNode.template nm ps :: rest) i).2 =
          tplEntries i nm ps ++ (maskNodes rest (i + 1)).2 := rfl
      rw [maskToks] at ht
      rcases List.mem_append.mp ht with ht | ht
      · rw [tplToks] at ht
        rcases List.mem_cons.mp ht with rfl | ht
        · exact Or.inl ⟨_, rfl, by decide⟩
        rcases List.mem_cons.mp ht with rfl | ht
        · refine Or.inr ⟨phTPL i, rfl, ?_⟩
          rw [hmap, List.map_append]
          refine List.mem_append_left _ ?_
          rw [tplEntries_keys]
          exact List.mem_cons_self _ _
        rcases List.mem_append.mp ht with ht | ht
        · rcases paramsToks_wf i ps 0 hnode.2 t ht with hc | ⟨j2, _, hj2, rfl⟩
          · exact Or.inl hc
          · refine Or.inr ⟨phK i j2, rfl, ?_⟩
            rw [hmap, List.map_append]
            refine List.mem_append_left _ ?_
            rw [tplEntries_keys]
            refine List.mem_cons_of_mem _ ?_
            exact List.mem_map_of_mem _ (List.mem_range.mpr (by omega))
        · obtain rfl := List.mem_singleton.mp ht
          exact Or.inl ⟨_, rfl, by decide⟩
      · rcases ih (i + 1) h.2 t ht with hc | ⟨key, heq, hk⟩
        · exact Or.inl hc
        · refine Or.inr ⟨key, heq, ?_⟩
          rw [hmap, List.map_append]
          exact List.mem_append_right _ hk

theorem resolveTok_ph (m : List (String × String)) (s : String) :
    resolveTok m (CTok.ph s.data) = CTok.plain ((alistLookup s m).getD "").data := rfl

theorem paramsToks_resolved (m : List (String × String)) (i : Nat) :
    ∀ (ps : List WParam) (j : Nat),
      (∀ (j2 : Nat) (p : WParam), ps[j2]? = some p →
        alistLookup (phK i (j + j2)) m = some p.pname) →
      ctoksJoin ((paramsToks i j ps).map (resolveTok m)) =
        (if ps.isEmpty then ([] : List Char)
         else (if j = 0 then ['|'] else [' ', '|', ' ']) ++
           (joinSepBar (ps.map
             (fun p => p.pname ++ "=" ++ serializeValue p.value))).data) := by
  intro ps
  induction ps with
  | nil => intro j _; simp [paramsToks, ctoksJoin]
  | cons p rest ih =>
    intro j hlk
    have hp0 : alistLookup (phK i j) m = some p.pname := by
      have h2 := hlk 0 p (by rw [List.getElem?_cons_zero])
      rwa [Nat.add_zero] at h2
    have hrest : ∀ (j2 : Nat) (q : WParam), rest[j2]? = some q →
        alistLookup (phK i (j + 1 + j2)) m = some q.pname := by
      intro j2 q hq
      have h2 := hlk (j2 + 1) q (by rw [List.getElem?_cons_succ]; exact hq)
      rwa [show j + (j2 + 1) = j + 1 + j2 from by omega] at h2
    rw [paramsToks, List.map_cons, List.map_cons, List.map_cons,
      ctoksJoin_cons, ctoksJoin_cons, ctoksJoin_cons, ih (j + 1) hrest,
      resolveTok_ph m (phK i j), hp0]
    cases rest with
    | nil =>
      by_cases hj : j = 0 <;>
        simp [hj, resolveTok, ctokChars, joinSepBar, Option.getD_some,
          String.data_append, List.append_assoc]
    | cons q rest2 =>
      have hj1 : ¬(j + 1 = 0) := by omega
      by_cases hj : j = 0 <;>
        simp [hj, hj1, resolveTok, ctokChars, joinSepBar, Option.getD_some,
          String.data_append, List.append_assoc]

theorem tplToks_resolved (m : List (String × String)) (i : Nat) (nm : String)
    (ps : List WParam)
    (hname : alistLookup (phTPL i) m = some nm)
    (hps : ∀ (j2 : Nat) (p : WParam), ps[j2]? = some p →
      alistLookup (phK i j2) m = some p.pname) :
    ctoksJoin ((tplToks i ps).map (resolveTok m)) =
      (normSerializeNode (.template nm ps)).data := by
  have hps0 : ∀ (j2 : Nat) (p : WParam), ps[j2]? = some p →
      alistLookup (phK i (0 + j2)) m = some p.pname := by
    intro j2 p hp
    rw [Nat.zero_add]
    exact hps j2 p hp
  rw [tplToks, List.map_cons, List.map_cons, List.map_append,
    ctoksJoin_cons, ctoksJoin_cons, ctoksJoin_append,
    paramsToks_resolved m i ps 0 hps0, resolveTok_ph m (phTPL i), hname]
  by_cases hps2 : ps.isEmpty
  · simp [hps2, resolveTok, ctokChars, Option.getD_some, ctoksJoin,
      normSerializeNode, String.data_append]
  · simp [hps2, resolveTok, ctokChars, Option.getD_some, ctoksJoin,
      normSerializeNode, String.data_append, List.append_assoc]

theorem maskToks_resolved (m : List (String × String)) :
    ∀ (doc : List WNode) (i : Nat),
      (∀ kv ∈ (maskNodes doc i).2, alistLookup kv.1 m = some kv.2) →
      ctoksJoin ((maskToks doc i).map (resolveTok m)) = (normSerialize doc).data := by
  intro doc
  induction doc with
  | nil => intro i _; simp [maskToks, ctoksJoin, normSerialize, join_data]
  | cons nd rest ih =>
    intro i hsub
    cases nd with
    | other s =>
      rw [maskToks, List.map_cons, ctoksJoin_cons, normSerialize_cons,
        ih i (fun kv hkv => hsub kv hkv)]
      rfl
    | template nm ps =>
      have hmap : (maskNodes (WNode.template nm ps :: rest) i).2 =
          tplEntries i nm ps ++ (maskNodes rest (i + 1)).2 := rfl
      have hname : alistLookup (phTPL i) m = some nm := by
        refine hsub (phTPL i, nm) ?_
        rw [hmap]
        exact List.mem_append_left _ (List.mem_cons_self _ _)
      have hps : ∀ (j2 : Nat) (p : WParam), ps[j2]? = some p →
          alistLookup (phK i j2) m = some p.pname := by
        intro j2 p hp
        refine hsub (phK i j2, p.pname) ?_
        rw [hmap]
        refine List.mem_append_left _ ?_
        rw [tplEntries]
        refine List.mem_cons_of_mem _ ?_
        refine List.mem_map.mpr ⟨(j2, p), ?_, rfl⟩
        have h2 := getElem?_mem_enumFrom ps 0 j2 p hp
        rw [Nat.zero_add] at h2
        exact h2
      have hrest : ∀ kv ∈ (maskNodes rest (i + 1)).2, alistLookup kv.1 m = some kv.2 := by
        intro kv hkv
        refine hsub kv ?_
        rw [hmap]
        exact List.mem_append_right _ hkv
      rw [maskToks, List.map_append, ctoksJoin_append,
        tplToks_resolved m i nm ps hname hps, ih (i + 1) hrest, normSerialize_cons]

/-- Claim C1, amended: for a parsed document none of whose literal strings
contains the placeholder delimiter `⟪`, unmasking the masked text with the
mapping produced by the same masking pass yields the parameter-normalized
serialization of the document — every template rebuilt with explicit
`key=value` parameters joined by `' | '` — rather than its original source
text. -/
theorem C1_roundtrip_amended (doc : List WNode) (h : nodesClean doc = true) :
    restore_masked_templates (mask_templates_doc doc).1 (mask_templates_doc doc).2 =
      normSerialize doc := by
  have hmapeq : (mask_templates_doc doc).2 =
      ((topTemplates doc).enumFrom 0).flatMap
        (fun it => tplEntries it.1 it.2.1 it.2.2) := maskNodes_snd doc 0
  have hnd : ((mask_templates_doc doc).2.map Prod.fst).Nodup := by
    rw [hmapeq]
    exact keysFrom_nodup (topTemplates doc) 0
  have hshaped : ∀ key ∈ (mask_templates_doc doc).2.map Prod.fst, KeyShaped key.data := by
    intro k hk
    rw [hmapeq] at hk
    obtain ⟨a, _, hka | ⟨b, hkb⟩⟩ := mem_keysFrom (topTemplates doc) 0 hk
    · exact hka ▸ phTPL_shaped a
    · exact hkb ▸ phK_shaped a b
  have hvclean : ∀ kv ∈ (mask_templates_doc doc).2, charsClean kv.2.data = true :=
    maskMapping_vclean h 0
  have hsub : ∀ kv ∈ (mask_templates_doc doc).2,
      alistLookup kv.1 (mask_templates_doc doc).2 = some kv.2 := by
    intro kv hkv
    exact alistLookup_of_mem_of_nodup hnd hkv
  have hts : ∀ t ∈ maskToks doc 0,
      (∃ s, t = CTok.plain s ∧ charsClean s = true) ∨
      (∃ key, t = CTok.ph key.data ∧ key ∈ (mask_templates_doc doc).2.map Prod.fst ∧
        key ∈ sortKeys ((mask_templates_doc doc).2.map Prod.fst)) := by
    intro t ht
    rcases maskToks_wf doc 0 h t ht with hc | ⟨key, heq, hk⟩
    · exact Or.inl hc
    · exact Or.inr ⟨key, heq, hk, mem_sortKeys.mpr hk⟩
  have hfold := fold_replace (mask_templates_doc doc).2 hshaped hnd hvclean
    (sortKeys ((mask_templates_doc doc).2.map Prod.fst))
    (fun k hk => mem_sortKeys.mp hk) (maskToks doc 0) hts
  apply String.ext
  show ((sortKeys ((mask_templates_doc doc).2.map Prod.fst)).foldl
      (fun acc ph2 => pyReplace acc ph2
        ((alistLookup ph2 (mask_templates_doc doc).2).getD ""))
      (mask_templates_doc doc).1).data = (normSerialize doc).data
  rw [restore_fold_data (mask_templates_doc doc).2
    (sortKeys ((mask_templates_doc doc).2.map Prod.fst)) (mask_templates_doc doc).1]
  rw [show (mask_templates_doc doc).1.data = ctoksJoin (maskToks doc 0) from
    (maskToks_join doc 0).symm]
  rw [hfold]
  exact maskToks_resolved (mask_templates_doc doc).2 doc 0 hsub

theorem C1_roundtrip_amended_witness :
    nodesClean exDocC1 = true ∧
    restore_masked_templates (mask_templates_doc exDocC1).1
      (mask_templates_doc exDocC1).2 = normSerialize exDocC1 := by
  have h : nodesClean exDocC1 = true := by
    simp [exDocC1, nodesClean, nodeClean, paramsCleanB, charsClean]
  exact ⟨h, C1_roundtrip_amended exDocC1 h⟩

/-- Claim C1, counterexample to the claim as stated: the document
`\x7b\x7bFoo|a=1|b=2\x7d\x7d` contains no placeholder text at all, yet unmasking its
masked form yields `\x7b\x7bFoo|a=1 | b=2\x7d\x7d` — the masking pass joins the
parameters with `' | '` and the extra spaces are never removed — so the round
trip does not return the serialized parse of the document. -/
theorem C1_roundtrip_counterexample :
    nodesClean exDocC1 = true ∧
    serializeValue exDocC1 = "\x7b\x7bFoo|a=1|b=2\x7d\x7d" ∧
    restore_masked_templates (mask_templates_doc exDocC1).1
      (mask_templates_doc exDocC1).2 = "\x7b\x7bFoo|a=1 | b=2\x7d\x7d" ∧
    restore_masked_templates (mask_templates_doc exDocC1).1
      (mask_templates_doc exDocC1).2 ≠ serializeValue exDocC1 := by
  have hres : restore_masked_templates (mask_templates_doc exDocC1).1
      (mask_templates_doc exDocC1).2 = "\x7b\x7bFoo|a=1 | b=2\x7d\x7d" := by
    rw [show mask_templates_doc exDocC1 =
      ("\x7b\x7b⟪TPL_0⟫|⟪K_0_0⟫=1 | ⟪K_0_1⟫=2\x7d\x7d",
        [("⟪TPL_0⟫", "Foo"), ("⟪K_0_0⟫", "a"), ("⟪K_0_1⟫", "b")]) from rfl]
    simp [restore_masked_templates, sortKeys, insertSorted, keyLE, charsLE,
      pyReplace, creplace, creplaceGo, String.length, alistLookup]
  refine ⟨by simp [exDocC1, nodesClean, nodeClean, paramsCleanB, charsClean],
    rfl, hres, ?_⟩
  rw [hres, show serializeValue exDocC1 = "\x7b\x7bFoo|a=1|b=2\x7d\x7d" from rfl]
  decide
